import Mathlib

/-!
Verification of the generic graph engine of the CAL-PROJ repository
(`src/lib/Graph.h`): vertex/edge model, vertex and edge insertion, the
single-source shortest-path algorithms (unweighted BFS variant, Dijkstra,
Bellman-Ford), the all-pairs Floyd-Warshall computation and single-source
path reconstruction.

Modelling conventions (shallow embedding):
* C++ `double` distances and weights are modelled as exact rationals `ℚ`;
  the sentinel `INF = std::numeric_limits<double>::max()` is modelled as
  `⊤ : WithTop ℚ` (so `INF + w = INF` and `INF` compares above every
  finite value, matching the sentinel's intended use in the source).
* `Vertex<T>*` pointers into `vertexSet` are modelled as indices `ℕ` into
  the `vertexSet` list; the null pointer is `Option.none`.
* The in-place mutation of the per-vertex scratch fields `dist`/`path` is
  modelled by explicit state passing: a pair of functions `ℕ → WithTop ℚ`
  and `ℕ → Option ℕ` indexed by vertex position.
* Fallible operations (the C++ code dereferences `findVertex`'s result
  without a null check) return `Option`, `none` standing for the
  undefined behaviour of the null dereference.
* `MutablePriorityQueue.h` is not part of the provided sources; the queue
  is modelled from the spec (see `extractMinQ` below).
-/

/- The rational operations of core Lean are marked `@[irreducible]`,
which only affects elaborator-side reduction, not the kernel or
soundness; making them semireducible again lets `decide` evaluate the
algorithms on the small concrete graphs used as witnesses and
counterexamples. -/
set_option allowUnsafeReducibility true
attribute [local semireducible] Rat.add Rat.mul Rat.div Rat.inv Rat.neg Rat.sub

namespace CAL

/-- Edge of the graph (`src/lib/Graph.h`, `class Edge`): destination
vertex (modelled as an index into the owning graph's `vertexSet`),
`double weight`, and the cosmetic `displayGV` flag. -/
structure Edge where
  dest : Nat
  weight : ℚ
  displayGV : Bool
deriving DecidableEq, Repr

/-- Vertex of the graph (`src/lib/Graph.h`, `class Vertex`): payload
`info`, outgoing edges `adj`, and the algorithm scratch fields `dist`
(C++ field initializer `double dist = 0`) and `path`
(`Vertex<T> *path = NULL`, modelled as an optional index). The
`queueIndex`, `visited` and `processing` fields are bookkeeping not read
by any of the claims and are omitted. -/
structure Vertex (T : Type) where
  info : T
  adj : List Edge
  dist : WithTop ℚ
  path : Option Nat
deriving DecidableEq

/-- Graph (`src/lib/Graph.h`, `class Graph`): the owned vertex list. The
all-pairs matrices `W`/`P` are produced by `floydWarshallShortestPath`
and are modelled as the explicit result of that function. -/
structure Graph (T : Type) where
  vertexSet : List (Vertex T)
deriving DecidableEq

variable {T : Type} [DecidableEq T]

/-- `Graph<T>::findVertexIdx`: index of the first vertex whose payload
equals `info`, `none` for the C++ sentinel `-1` (and likewise the model
of `findVertex`, which returns the first matching pointer). -/
def Graph.findVertexIdx (g : Graph T) (info : T) : Option Nat :=
  g.vertexSet.findIdx? (fun v => decide (v.info = info))

/-- `Graph<T>::addVertex`: fails (returns `false`, no mutation) when a
vertex with an equal payload exists, otherwise pushes a freshly
constructed vertex (`new Vertex<T>(in)`: empty adjacency, `dist = 0`,
`path = NULL`). -/
def Graph.addVertex (g : Graph T) (info : T) : Graph T × Bool :=
  match g.findVertexIdx info with
  | some _ => (g, false)
  | none => (⟨g.vertexSet ++ [⟨info, [], 0, none⟩]⟩, true)

/-- `Vertex<T>::addEdge`: push one outgoing edge. -/
def Vertex.addEdge (v : Vertex T) (dest : Nat) (w : ℚ) (disp : Bool) : Vertex T :=
  { v with adj := v.adj ++ [⟨dest, w, disp⟩] }

/-- Replace the element at position `i` of a list by `f` of it
(modelling in-place mutation through a `Vertex<T>*`). -/
def updateAt {α : Type} : List α → Nat → (α → α) → List α
  | [], _, _ => []
  | x :: xs, 0, f => f x :: xs
  | x :: xs, i + 1, f => x :: updateAt xs i f

/-- `Graph<T>::addEdge` (the four-argument overload; the three-argument
overload is identical except that it leaves `displayGV` uninitialized):
fails when either endpoint payload is absent, otherwise appends one
directed edge to the source vertex's adjacency. -/
def Graph.addEdge (g : Graph T) (sourc dest : T) (w : ℚ) (disp : Bool) :
    Graph T × Bool :=
  match g.findVertexIdx sourc, g.findVertexIdx dest with
  | some i, some j => (⟨updateAt g.vertexSet i (fun v => v.addEdge j w disp)⟩, true)
  | some _, none => (g, false)
  | none, _ => (g, false)

theorem updateAt_length {α : Type} (l : List α) (i : Nat) (f : α → α) :
    (updateAt l i f).length = l.length := by
  induction l generalizing i with
  | nil => rfl
  | cons x xs ih =>
    cases i with
    | zero => rfl
    | succ i => simp [updateAt, ih]

theorem updateAt_get_self {α : Type} (l : List α) (i : Nat) (f : α → α)
    (h : i < l.length) :
    (updateAt l i f)[i]? = (l[i]?).map f := by
  induction l generalizing i with
  | nil => simp at h
  | cons x xs ih =>
    cases i with
    | zero => simp [updateAt]
    | succ i =>
      simp only [updateAt, List.getElem?_cons_succ]
      exact ih i (by simpa using h)

theorem updateAt_get_other {α : Type} (l : List α) (i k : Nat) (f : α → α)
    (h : k ≠ i) : (updateAt l i f)[k]? = l[k]? := by
  induction l generalizing i k with
  | nil => rfl
  | cons x xs ih =>
    cases i with
    | zero =>
      cases k with
      | zero => exact absurd rfl h
      | succ k => simp [updateAt]
    | succ i =>
      cases k with
      | zero => simp [updateAt]
      | succ k =>
        simp only [updateAt, List.getElem?_cons_succ]
        exact ih i k (fun hk => h (by simp [hk]))

theorem findVertexIdx_eq_none_iff (g : Graph T) (p : T) :
    g.findVertexIdx p = none ↔ ∀ v ∈ g.vertexSet, v.info ≠ p := by
  unfold Graph.findVertexIdx
  rw [List.findIdx?_eq_none_iff]
  constructor
  · intro h v hv
    have := h v hv
    simpa using this
  · intro h v hv
    simpa using h v hv

/-- C7 counterexample: adding a vertex with payload `7` to the empty
graph creates a vertex whose `dist` field is `0`, not `+∞` — the C++
field initializer is `double dist = 0`, so the claim that a newly
created vertex has distance defaulting to `+infinity` is false. -/
theorem newVertex_dist_zero_counterexample :
    (((⟨[]⟩ : Graph ℕ).addVertex 7).1.vertexSet.map Vertex.dist
        = [(0 : WithTop ℚ)]) ∧
      ((0 : WithTop ℚ) ≠ ⊤) := by
  constructor
  · rfl
  · decide

/-- C7 (amended): a newly created vertex (appended by a successful
`addVertex`) has `dist` defaulting to `0` — not `+infinity`; distances
are only set to `INF` by the reset at the start of each single-source
algorithm — and `path` (the predecessor) defaulting to `none`. -/
theorem newVertex_default_state (g : Graph T) (p : T)
    (h : g.findVertexIdx p = none) :
    (g.addVertex p).1.vertexSet =
      g.vertexSet ++ [⟨p, [], 0, none⟩] := by
  unfold Graph.addVertex
  rw [h]

theorem newVertex_default_state_witness :
    ((⟨[]⟩ : Graph ℕ).addVertex 7).1.vertexSet =
      [] ++ [⟨7, [], 0, none⟩] :=
  newVertex_default_state ⟨[]⟩ 7 rfl

/-- C8: `addVertex` returns `false` and leaves the graph completely
unchanged when a vertex with an equal payload exists, and otherwise
returns `true` and appends exactly one new vertex with payload `p` and
empty adjacency (leaving every pre-existing vertex unchanged). -/
theorem addVertex_spec (g : Graph T) (p : T) :
    ((∃ v ∈ g.vertexSet, v.info = p) → g.addVertex p = (g, false)) ∧
    ((∀ v ∈ g.vertexSet, v.info ≠ p) →
      (g.addVertex p).2 = true ∧
      (g.addVertex p).1.vertexSet = g.vertexSet ++ [⟨p, [], 0, none⟩]) := by
  constructor
  · intro hex
    have hne : ¬ g.findVertexIdx p = none := by
      rw [findVertexIdx_eq_none_iff]
      intro hall
      obtain ⟨v, hv, hvp⟩ := hex
      exact hall v hv hvp
    unfold Graph.addVertex
    cases hidx : g.findVertexIdx p with
    | none => exact absurd hidx hne
    | some i => rfl
  · intro hall
    have hnone : g.findVertexIdx p = none :=
      (findVertexIdx_eq_none_iff g p).mpr hall
    unfold Graph.addVertex
    rw [hnone]
    exact ⟨rfl, rfl⟩

theorem addVertex_spec_witness :
    ((∃ v ∈ (⟨[⟨3, [], 0, none⟩]⟩ : Graph ℕ).vertexSet, v.info = 3) →
      (⟨[⟨3, [], 0, none⟩]⟩ : Graph ℕ).addVertex 3 =
        (⟨[⟨3, [], 0, none⟩]⟩, false)) ∧
    ((∀ v ∈ (⟨[⟨3, [], 0, none⟩]⟩ : Graph ℕ).vertexSet, v.info ≠ 3) →
      ((⟨[⟨3, [], 0, none⟩]⟩ : Graph ℕ).addVertex 3).2 = true ∧
      ((⟨[⟨3, [], 0, none⟩]⟩ : Graph ℕ).addVertex 3).1.vertexSet =
        (⟨[⟨3, [], 0, none⟩]⟩ : Graph ℕ).vertexSet ++ [⟨3, [], 0, none⟩]) :=
  addVertex_spec (⟨[⟨3, [], 0, none⟩]⟩ : Graph ℕ) 3

/-- C9: `addEdge` returns `false` and mutates nothing when either
endpoint payload is absent; otherwise it returns `true`, appends exactly
one directed edge `⟨j, w, disp⟩` to the (first) source vertex's
adjacency, and leaves every other vertex — in particular any edge stored
in the opposite direction — unchanged, as well as the source vertex's
payload and scratch fields. -/
theorem addEdge_spec (g : Graph T) (s d : T) (w : ℚ) (disp : Bool) :
    (g.findVertexIdx s = none ∨ g.findVertexIdx d = none →
      g.addEdge s d w disp = (g, false)) ∧
    (∀ i j, g.findVertexIdx s = some i → g.findVertexIdx d = some j →
      (g.addEdge s d w disp).2 = true ∧
      (g.addEdge s d w disp).1.vertexSet.length = g.vertexSet.length ∧
      ((g.addEdge s d w disp).1.vertexSet[i]? =
        (g.vertexSet[i]?).map (fun v => v.addEdge j w disp)) ∧
      (∀ k, k ≠ i → (g.addEdge s d w disp).1.vertexSet[k]? = g.vertexSet[k]?)) := by
  constructor
  · intro habs
    unfold Graph.addEdge
    cases hs : g.findVertexIdx s with
    | none => rfl
    | some i =>
      cases hd : g.findVertexIdx d with
      | none => rfl
      | some j =>
        rcases habs with h | h
        · rw [hs] at h; exact absurd h (by simp)
        · rw [hd] at h; exact absurd h (by simp)
  · intro i j hs hd
    have hi : i < g.vertexSet.length := by
      have := List.findIdx?_eq_some_iff_findIdx_eq.mp hs
      exact this.1
    unfold Graph.addEdge
    rw [hs, hd]
    refine ⟨rfl, updateAt_length _ _ _, ?_, ?_⟩
    · exact updateAt_get_self _ _ _ hi
    · intro k hk
      exact updateAt_get_other _ _ _ _ hk

/-! ## Walks

A walk is a list of steps `(destination index, edge weight)`; each step
must be realized by an actual edge of the adjacency structure (parallel
edges carry distinct weights, so steps record the weight used). Costs
are taken through a function `f` on the stored weight: `f = id` for
Dijkstra/Bellman-Ford, `f = const 1` for the unweighted algorithm. -/

/-- Adjacency of the vertex at position `i` (empty for out-of-range
indices; C++ edge pointers always target real vertices, which the
well-formedness predicate `WFadj` captures). -/
def Graph.adjf (g : Graph T) (i : Nat) : List Edge :=
  ((g.vertexSet[i]?).map Vertex.adj).getD []

/-- Every edge of the adjacency structure targets a vertex index `< n`
(the model of "edge pointers point into the vertex set"). -/
@[reducible] def WFadj (A : Nat → List Edge) (n : Nat) : Prop :=
  ∀ u, u < n → ∀ e ∈ A u, e.dest < n

/-- `IsWalk A u steps v`: `steps` is a walk from `u` to `v`, each step
realized by an edge of `A`. -/
def IsWalk (A : Nat → List Edge) : Nat → List (Nat × ℚ) → Nat → Prop
  | u, [], v => u = v
  | u, st :: rest, v =>
      (∃ e ∈ A u, e.dest = st.1 ∧ e.weight = st.2) ∧ IsWalk A st.1 rest v

/-- Total cost of a walk under the weight interpretation `f`. -/
def costF (f : ℚ → ℚ) (steps : List (Nat × ℚ)) : ℚ :=
  (steps.map (fun st => f st.2)).sum

def Reachable (A : Nat → List Edge) (s v : Nat) : Prop :=
  ∃ steps, IsWalk A s steps v

/-- Every cycle at a vertex reachable from `s` has nonnegative `f`-cost
(automatic for nonnegative weights; the Bellman-Ford hypothesis). -/
def CycleNonnegF (A : Nat → List Edge) (f : ℚ → ℚ) (s : Nat) : Prop :=
  ∀ v steps, Reachable A s v → IsWalk A v steps v → 0 ≤ costF f steps

theorem costF_nil (f : ℚ → ℚ) : costF f [] = 0 := rfl

theorem costF_cons (f : ℚ → ℚ) (st : Nat × ℚ) (l : List (Nat × ℚ)) :
    costF f (st :: l) = f st.2 + costF f l := by
  simp [costF]

theorem costF_append (f : ℚ → ℚ) (l₁ l₂ : List (Nat × ℚ)) :
    costF f (l₁ ++ l₂) = costF f l₁ + costF f l₂ := by
  simp [costF]

theorem costF_one (steps : List (Nat × ℚ)) :
    costF (fun _ => 1) steps = steps.length := by
  induction steps with
  | nil => rfl
  | cons st l ih =>
    rw [costF_cons, ih, List.length_cons]
    push_cast
    ring

theorem costF_nonneg (f : ℚ → ℚ) (hf : ∀ q, 0 ≤ f q) (steps : List (Nat × ℚ)) :
    0 ≤ costF f steps := by
  induction steps with
  | nil => simp [costF_nil]
  | cons st l ih => rw [costF_cons]; exact add_nonneg (hf st.2) ih

theorem isWalk_nil (A : Nat → List Edge) (u v : Nat) :
    IsWalk A u [] v ↔ u = v := Iff.rfl

theorem isWalk_cons (A : Nat → List Edge) (u v : Nat) (st : Nat × ℚ)
    (rest : List (Nat × ℚ)) :
    IsWalk A u (st :: rest) v ↔
      (∃ e ∈ A u, e.dest = st.1 ∧ e.weight = st.2) ∧ IsWalk A st.1 rest v :=
  Iff.rfl

theorem isWalk_append (A : Nat → List Edge) (u v : Nat)
    (l₁ l₂ : List (Nat × ℚ)) :
    IsWalk A u (l₁ ++ l₂) v ↔ ∃ m, IsWalk A u l₁ m ∧ IsWalk A m l₂ v := by
  induction l₁ generalizing u with
  | nil =>
    simp only [List.nil_append, isWalk_nil]
    constructor
    · intro h; exact ⟨u, rfl, h⟩
    · rintro ⟨m, rfl, h⟩; exact h
  | cons st rest ih =>
    simp only [List.cons_append, isWalk_cons, ih]
    constructor
    · rintro ⟨he, m, h1, h2⟩; exact ⟨m, ⟨he, h1⟩, h2⟩
    · rintro ⟨m, ⟨he, h1⟩, h2⟩; exact ⟨he, m, h1, h2⟩

theorem isWalk_end_lt {A : Nat → List Edge} {n u v : Nat}
    {steps : List (Nat × ℚ)} (hWF : WFadj A n) (hu : u < n)
    (h : IsWalk A u steps v) : v < n := by
  induction steps generalizing u with
  | nil => exact h ▸ hu
  | cons st rest ih =>
    obtain ⟨⟨e, he, hd, _⟩, hw⟩ := h
    exact ih (hd ▸ hWF u hu e he) hw

/-- The vertex reached after `i` steps of a walk starting at `u`. -/
def vertAt (u : Nat) (steps : List (Nat × ℚ)) (i : Nat) : Nat :=
  ((u :: steps.map Prod.fst).getD i u)

theorem vertAt_zero (u : Nat) (steps : List (Nat × ℚ)) : vertAt u steps 0 = u := rfl

theorem vertAt_nil (u i : Nat) : vertAt u ([] : List (Nat × ℚ)) i = u := by
  cases i with
  | zero => rfl
  | succ i => rfl

theorem vertAt_succ_cons (u : Nat) (st : Nat × ℚ) (rest : List (Nat × ℚ)) (i : Nat)
    (hi : i ≤ rest.length) :
    vertAt u (st :: rest) (i + 1) = vertAt st.1 rest i := by
  unfold vertAt
  simp only [List.map_cons]
  rw [List.getD_cons_succ]
  rw [List.getD_eq_getElem _ _ (by simp; omega), List.getD_eq_getElem _ _ (by simp; omega)]

theorem isWalk_split {A : Nat → List Edge} {u v : Nat} {steps : List (Nat × ℚ)}
    (h : IsWalk A u steps v) (i : Nat) (hi : i ≤ steps.length) :
    IsWalk A u (steps.take i) (vertAt u steps i) ∧
      IsWalk A (vertAt u steps i) (steps.drop i) v := by
  induction steps generalizing u i with
  | nil =>
    rw [vertAt_nil]
    simp only [List.take_nil, List.drop_nil]
    exact ⟨rfl, h⟩
  | cons st rest ih =>
    cases i with
    | zero => exact ⟨rfl, h⟩
    | succ i =>
      obtain ⟨he, hw⟩ := h
      have hle : i ≤ rest.length := by simpa using hi
      have := ih hw i hle
      rw [vertAt_succ_cons u st rest i hle]
      exact ⟨⟨he, this.1⟩, this.2⟩

theorem vertAt_lt {A : Nat → List Edge} {n u v : Nat} {steps : List (Nat × ℚ)}
    (hWF : WFadj A n) (hu : u < n) (h : IsWalk A u steps v) (i : Nat)
    (hi : i ≤ steps.length) : vertAt u steps i < n :=
  isWalk_end_lt hWF hu (isWalk_split h i hi).1

/-- Pigeonhole: a list of more than `n` naturals all `< n` has a
repeated entry. -/
theorem exists_dup_of_long {l : List Nat} {n : Nat}
    (hlt : ∀ x ∈ l, x < n) (hlen : n < l.length) :
    ∃ i j, i < j ∧ j < l.length ∧ l.getD i 0 = l.getD j 0 := by
  have hnd : ¬ l.Nodup := by
    intro hnd
    have hsub : l.toFinset ⊆ Finset.range n := by
      intro x hx
      simp only [List.mem_toFinset] at hx
      exact Finset.mem_range.mpr (hlt x hx)
    have h1 : l.toFinset.card = l.length := List.toFinset_card_of_nodup hnd
    have h2 := Finset.card_le_card hsub
    rw [h1, Finset.card_range] at h2
    omega
  rw [List.nodup_iff_injective_get] at hnd
  simp only [Function.Injective] at hnd
  push_neg at hnd
  obtain ⟨i, j, hij, hne⟩ := hnd
  rcases Nat.lt_or_ge i.1 j.1 with hlt' | hge
  · refine ⟨i.1, j.1, hlt', j.2, ?_⟩
    rw [List.getD_eq_getElem _ _ i.2, List.getD_eq_getElem _ _ j.2]
    simpa [List.get_eq_getElem] using hij
  · have : j.1 < i.1 := by
      rcases Nat.lt_or_ge j.1 i.1 with h | h
      · exact h
      · exact absurd (Fin.ext (by omega)) hne
    refine ⟨j.1, i.1, this, i.2, ?_⟩
    rw [List.getD_eq_getElem _ _ j.2, List.getD_eq_getElem _ _ i.2]
    simpa [List.get_eq_getElem] using hij.symm

theorem isWalk_verts_lt {A : Nat → List Edge} {n u v : Nat}
    {steps : List (Nat × ℚ)} (hWF : WFadj A n) (hu : u < n)
    (h : IsWalk A u steps v) : ∀ x ∈ u :: steps.map Prod.fst, x < n := by
  induction steps generalizing u with
  | nil => intro x hx; simp at hx; exact hx ▸ hu
  | cons st rest ih =>
    obtain ⟨⟨e, he, hd, _⟩, hw⟩ := h
    intro x hx
    simp only [List.map_cons, List.mem_cons] at hx
    rcases hx with rfl | hx
    · exact hu
    · exact ih (hd ▸ hWF u hu e he) hw x (by simpa using hx)

theorem vertAt_take (u : Nat) (steps : List (Nat × ℚ)) (i j : Nat) (hij : i ≤ j) :
    vertAt u (steps.take j) i = vertAt u steps i := by
  unfold vertAt
  cases i with
  | zero => rfl
  | succ i =>
    show ((u :: (steps.take j).map Prod.fst).getD (i + 1) u) =
      ((u :: steps.map Prod.fst).getD (i + 1) u)
    rw [List.getD_cons_succ, List.getD_cons_succ, List.map_take]
    unfold List.getD
    rw [List.get?_take (by omega)]

theorem vertAt_eq_getD (u : Nat) (steps : List (Nat × ℚ)) (i : Nat)
    (hi : i < (u :: steps.map Prod.fst).length) :
    vertAt u steps i = (u :: steps.map Prod.fst).getD i 0 := by
  unfold vertAt
  rw [List.getD_eq_getElem _ _ hi, List.getD_eq_getElem _ _ hi]

/-- Cycle removal: when every reachable cycle has nonnegative `f`-cost,
every walk from `s` can be shortened to at most `n - 1` steps without
increasing its `f`-cost. -/
theorem walk_shorten {A : Nat → List Edge} {n : Nat} {f : ℚ → ℚ} {s : Nat}
    (hWF : WFadj A n) (hs : s < n) (hcyc : CycleNonnegF A f s) :
    ∀ steps v, IsWalk A s steps v →
      ∃ l, IsWalk A s l v ∧ l.length ≤ n - 1 ∧ costF f l ≤ costF f steps := by
  suffices H : ∀ L steps v, steps.length ≤ L → IsWalk A s steps v →
      ∃ l, IsWalk A s l v ∧ l.length ≤ n - 1 ∧ costF f l ≤ costF f steps by
    intro steps v hw
    exact H steps.length steps v le_rfl hw
  intro L
  induction L with
  | zero =>
    intro steps v hL hw
    have : steps = [] := List.length_eq_zero.mp (Nat.le_zero.mp hL)
    subst this
    exact ⟨[], hw, by omega, le_rfl⟩
  | succ L ih =>
    intro steps v hL hw
    by_cases hshort : steps.length ≤ n - 1
    · exact ⟨steps, hw, hshort, le_rfl⟩
    · push_neg at hshort
      have hn1 : 1 ≤ n := by omega
      have hlong : n < (s :: steps.map Prod.fst).length := by
        simp only [List.length_cons, List.length_map]
        omega
      obtain ⟨i, j, hij, hjlen, heq⟩ :=
        exists_dup_of_long (isWalk_verts_lt hWF hs hw) hlong
      have hjs : j ≤ steps.length := by
        simp only [List.length_cons, List.length_map] at hjlen
        omega
      have his : i ≤ steps.length := by omega
      have hvij : vertAt s steps i = vertAt s steps j := by
        rw [vertAt_eq_getD _ _ _ (by simp only [List.length_cons, List.length_map]; omega),
          vertAt_eq_getD _ _ _ (by simp only [List.length_cons, List.length_map]; omega)]
        exact heq
      -- split the walk at j, then split the first part at i
      have hsplit := isWalk_split hw j hjs
      have hsplit2 := isWalk_split hsplit.1 i
        (by rw [List.length_take]; omega)
      rw [vertAt_take s steps i j (by omega), hvij, List.take_take,
        Nat.min_eq_left (by omega : i ≤ j)] at hsplit2
      -- the middle part is a reachable cycle at `vertAt s steps j`
      have hreach : Reachable A s (vertAt s steps j) := ⟨steps.take i, hsplit2.1⟩
      have hcost_mid : 0 ≤ costF f ((steps.take j).drop i) :=
        hcyc _ _ hreach hsplit2.2
      -- the shortened walk
      have hw2 : IsWalk A s (steps.take i ++ steps.drop j) v := by
        rw [isWalk_append]
        exact ⟨vertAt s steps j, hsplit2.1, hsplit.2⟩
      have hlen2 : (steps.take i ++ steps.drop j).length ≤ L := by
        simp only [List.length_append, List.length_take, List.length_drop]
        omega
      have hcost2 : costF f (steps.take i ++ steps.drop j) ≤ costF f steps := by
        have e1 : costF f steps = costF f (steps.take j) + costF f (steps.drop j) := by
          rw [← costF_append, List.take_append_drop]
        have e2 : costF f (steps.take j) =
            costF f (steps.take i) + costF f ((steps.take j).drop i) := by
          conv_lhs => rw [← List.take_append_drop i (steps.take j)]
          rw [costF_append, List.take_take, Nat.min_eq_left (by omega : i ≤ j)]
        rw [costF_append, e1, e2]
        linarith
      obtain ⟨l, hl1, hl2, hl3⟩ := ih (steps.take i ++ steps.drop j) v hlen2 hw2
      exact ⟨l, hl1, hl2, le_trans hl3 hcost2⟩

/-! ## The per-run scratch state and the relaxation step

All three single-source algorithms mutate the per-vertex fields
`dist`/`path` in place through pointers; this is modelled as a pair of
functions indexed by vertex position, updated functionally. -/

structure DP where
  dist : Nat → WithTop ℚ
  path : Nat → Option Nat

/-- The relaxation step shared by the single-source algorithms
(`if (v->dist + w < e.dest->dist) { e.dest->dist = v->dist + w;
e.dest->path = v; }`), with `w` the weight the algorithm uses for the
edge (`e.weight` for Dijkstra/Bellman-Ford, `1` for the unweighted
algorithm). -/
def relaxW (u v : Nat) (w : ℚ) (dp : DP) : DP :=
  if dp.dist u + (w : WithTop ℚ) < dp.dist v then
    ⟨Function.update dp.dist v (dp.dist u + (w : WithTop ℚ)),
     Function.update dp.path v (some u)⟩
  else dp

/-- The state after every vertex has been reset
(`v->dist = INF; v->path = nullptr`) and the source set to `0`. -/
def initDP (s : Nat) : DP :=
  ⟨fun v => if v = s then 0 else ⊤, fun _ => none⟩

theorem relaxW_dist_le (u v : Nat) (w : ℚ) (dp : DP) (x : Nat) :
    (relaxW u v w dp).dist x ≤ dp.dist x := by
  unfold relaxW
  split
  · rename_i h
    by_cases hx : x = v
    · subst hx
      simp only [Function.update_same]
      exact le_of_lt h
    · simp [Function.update_noteq hx]
  · exact le_rfl

theorem relaxW_dist_other (u v : Nat) (w : ℚ) (dp : DP) (x : Nat) (hx : x ≠ v) :
    (relaxW u v w dp).dist x = dp.dist x := by
  unfold relaxW
  split
  · simp [Function.update_noteq hx]
  · rfl

theorem relaxW_path_other (u v : Nat) (w : ℚ) (dp : DP) (x : Nat) (hx : x ≠ v) :
    (relaxW u v w dp).path x = dp.path x := by
  unfold relaxW
  split
  · simp [Function.update_noteq hx]
  · rfl

theorem relaxW_of_not_lt (u v : Nat) (w : ℚ) (dp : DP)
    (h : ¬ dp.dist u + (w : WithTop ℚ) < dp.dist v) : relaxW u v w dp = dp := by
  unfold relaxW
  rw [if_neg h]

theorem relaxW_of_lt (u v : Nat) (w : ℚ) (dp : DP)
    (h : dp.dist u + (w : WithTop ℚ) < dp.dist v) :
    relaxW u v w dp =
      ⟨Function.update dp.dist v (dp.dist u + (w : WithTop ℚ)),
       Function.update dp.path v (some u)⟩ := by
  unfold relaxW
  rw [if_pos h]

theorem lt_imp_ne_top {a : WithTop ℚ} {w : ℚ} {b : WithTop ℚ}
    (h : a + (w : WithTop ℚ) < b) : a ≠ ⊤ := by
  intro ha
  rw [ha, top_add] at h
  exact absurd h (not_top_lt)

/-! ## Predecessor chains -/

/-- `Chain p v l`: following the predecessor links from `v` terminates,
visiting exactly the vertices of `l` (starting at `v`, ending at a
vertex with no predecessor). This models the traversal
`for ( ; v != nullptr; v = v->path)` of `getPathTo`/`getPath`. -/
inductive Chain (p : Nat → Option Nat) : Nat → List Nat → Prop
  | last (v : Nat) : p v = none → Chain p v [v]
  | step (v u : Nat) (l : List Nat) : p v = some u → Chain p u l → Chain p v (v :: l)

theorem chain_ne_nil {p : Nat → Option Nat} {v : Nat} {l : List Nat}
    (h : Chain p v l) : l ≠ [] := by
  cases h <;> simp

theorem chain_head {p : Nat → Option Nat} {v : Nat} {l : List Nat}
    (h : Chain p v l) : l.head? = some v := by
  cases h <;> rfl

theorem chain_unique {p : Nat → Option Nat} {v : Nat} {l₁ l₂ : List Nat}
    (h₁ : Chain p v l₁) (h₂ : Chain p v l₂) : l₁ = l₂ := by
  induction h₁ generalizing l₂ with
  | last v hnone =>
    cases h₂ with
    | last => rfl
    | step _ u _ hsome => rw [hnone] at hsome; exact absurd hsome (by simp)
  | step v u l hsome hc ih =>
    cases h₂ with
    | last _ hnone => rw [hnone] at hsome; exact absurd hsome (by simp)
    | step _ u₂ l₂ hsome₂ hc₂ =>
      rw [hsome] at hsome₂
      obtain rfl : u = u₂ := by injection hsome₂
      rw [ih hc₂]

theorem chain_suffix {p : Nat → Option Nat} {v : Nat} {l : List Nat}
    (h : Chain p v l) :
    ∀ pre x suf, l = pre ++ x :: suf → Chain p x (x :: suf) := by
  induction h with
  | last v hnone =>
    intro pre x suf heq
    cases pre with
    | nil =>
      simp only [List.nil_append, List.cons.injEq] at heq
      obtain ⟨rfl, rfl⟩ := heq
      exact Chain.last v hnone
    | cons a pre' =>
      simp only [List.cons_append, List.cons.injEq] at heq
      exact absurd heq.2 (by simp)
  | step v u l hsome hc ih =>
    intro pre x suf heq
    cases pre with
    | nil =>
      simp only [List.nil_append, List.cons.injEq] at heq
      obtain ⟨rfl, rfl⟩ := heq
      exact Chain.step v u l hsome hc
    | cons a pre' =>
      simp only [List.cons_append, List.cons.injEq] at heq
      exact ih pre' x suf heq.2

theorem chain_nodup {p : Nat → Option Nat} {v : Nat} {l : List Nat}
    (h : Chain p v l) : l.Nodup := by
  induction h with
  | last v hnone => simp
  | step v u l hsome hc ih =>
    rw [List.nodup_cons]
    refine ⟨fun hv => ?_, ih⟩
    obtain ⟨pre, suf, heq⟩ := List.append_of_mem hv
    have h1 : Chain p v (v :: suf) := chain_suffix hc pre v suf heq
    have h2 : Chain p v (v :: l) := Chain.step v u l hsome hc
    have := chain_unique h2 h1
    simp only [List.cons.injEq, true_and] at this
    subst this
    have : l.length = pre.length + (l.length + 1) := by
      have := congrArg List.length heq
      simpa [Nat.add_comm, Nat.add_assoc, Nat.add_left_comm] using this
    omega

theorem chain_update_not_mem {p : Nat → Option Nat} {v₀ : Nat} {q : Option Nat}
    {v : Nat} {l : List Nat} (h : Chain p v l) (hv : v₀ ∉ l) :
    Chain (Function.update p v₀ q) v l := by
  induction h with
  | last x hnone =>
    refine Chain.last x ?_
    rw [Function.update_noteq (by intro hx; exact hv (hx ▸ List.mem_singleton_self x))]
    exact hnone
  | step x u l hsome hc ih =>
    simp only [List.mem_cons, not_or] at hv
    refine Chain.step x u l ?_ (ih hv.2)
    rw [Function.update_noteq (Ne.symm (Ne.intro hv.1))]
    exact hsome

theorem chain_graft {p p' : Nat → Option Nat} {x : Nat} {l : List Nat}
    (h : Chain p x l) :
    ∀ pre v suf m, l = pre ++ v :: suf → (∀ y ∈ pre, p' y = p y) →
      Chain p' v m → Chain p' x (pre ++ m) := by
  induction h with
  | last z hnone =>
    intro pre v suf m heq hpre hm
    cases pre with
    | nil =>
      simp only [List.nil_append, List.cons.injEq] at heq
      obtain ⟨rfl, rfl⟩ := heq
      exact hm
    | cons a pre' =>
      simp only [List.cons_append, List.cons.injEq] at heq
      exact absurd heq.2 (by simp)
  | step z u l hsome hc ih =>
    intro pre v suf m heq hpre hm
    cases pre with
    | nil =>
      simp only [List.nil_append, List.cons.injEq] at heq
      obtain ⟨rfl, rfl⟩ := heq
      exact hm
    | cons a pre' =>
      simp only [List.cons_append, List.cons.injEq] at heq
      obtain ⟨rfl, heq2⟩ := heq
      have hstep := ih pre' v suf m heq2 (fun y hy => hpre y (List.mem_cons_of_mem _ hy)) hm
      refine Chain.step z u (pre' ++ m) ?_ ?_
      · rw [hpre z (List.mem_cons_self z pre')]
        exact hsome
      · -- the chain from u is (pre' ++ v :: suf); its head is the next node
        cases pre' with
        | nil =>
          simp only [List.nil_append] at heq2 hstep ⊢
          have hu : u = v := by
            have := chain_head hc
            rw [heq2] at this
            simpa using this.symm
          subst hu
          exact hstep
        | cons b pre'' =>
          have hu : u = b := by
            have := chain_head hc
            rw [heq2] at this
            simpa using this.symm
          subst hu
          exact hstep

theorem mem_split_first {α : Type} [DecidableEq α] {x : α} {l : List α}
    (h : x ∈ l) : ∃ pre suf, l = pre ++ x :: suf ∧ x ∉ pre := by
  induction l with
  | nil => simp at h
  | cons a l ih =>
    by_cases hax : a = x
    · subst hax
      exact ⟨[], l, rfl, by simp⟩
    · have hx : x ∈ l := by
        rcases List.mem_cons.mp h with h1 | h1
        · exact absurd h1.symm hax
        · exact h1
      obtain ⟨pre, suf, heq, hmem⟩ := ih hx
      exact ⟨a :: pre, suf, by rw [heq]; rfl,
        by simp only [List.mem_cons, not_or]; exact ⟨fun hh => hax hh.symm, hmem⟩⟩

/-! ## The generic invariant bundle

Facts maintained by every relaxation-based algorithm of the source:
each finite distance is witnessed by a walk from the source, the source
keeps distance `0` and no predecessor, predecessor links are realized by
edges and decrease along the link, only the source is a finite root, and
every finite vertex's predecessor chain terminates. -/

structure GInv (A : Nat → List Edge) (n : Nat) (f : ℚ → ℚ) (s : Nat) (dp : DP) : Prop where
  wit : ∀ v, dp.dist v ≠ ⊤ →
    ∃ steps, IsWalk A s steps v ∧ dp.dist v = (costF f steps : WithTop ℚ)
  src : dp.dist s = 0
  pred : ∀ v u, dp.path v = some u →
    u < n ∧ dp.dist v ≠ ⊤ ∧ dp.dist u ≠ ⊤ ∧
      ∃ e ∈ A u, e.dest = v ∧ dp.dist u + (f e.weight : WithTop ℚ) ≤ dp.dist v
  srcpath : dp.path s = none
  root : ∀ v, dp.dist v ≠ ⊤ → dp.path v = none → v = s
  chain : ∀ v, dp.dist v ≠ ⊤ → ∃ l, Chain dp.path v l

theorem isWalk_single {A : Nat → List Edge} {u : Nat} {e : Edge} (he : e ∈ A u) :
    IsWalk A u [(e.dest, e.weight)] e.dest := ⟨⟨e, he, rfl, rfl⟩, rfl⟩

theorem isWalk_snoc {A : Nat → List Edge} {s u : Nat} {steps : List (Nat × ℚ)}
    (h : IsWalk A s steps u) {e : Edge} (he : e ∈ A u) :
    IsWalk A s (steps ++ [(e.dest, e.weight)]) e.dest := by
  rw [isWalk_append]
  exact ⟨u, h, isWalk_single he⟩

theorem costF_snoc (f : ℚ → ℚ) (steps : List (Nat × ℚ)) (v : Nat) (w : ℚ) :
    costF f (steps ++ [(v, w)]) = costF f steps + f w := by
  rw [costF_append, costF_cons, costF_nil, add_zero]

theorem GInv_init {A : Nat → List Edge} {n : Nat} {f : ℚ → ℚ} {s : Nat} :
    GInv A n f s (initDP s) := by
  refine ⟨?_, ?_, ?_, ?_, ?_, ?_⟩
  · intro v hv
    simp only [initDP] at hv ⊢
    by_cases hvs : v = s
    · subst hvs
      refine ⟨[], rfl, ?_⟩
      simp [costF_nil]
    · rw [if_neg hvs] at hv
      exact absurd rfl hv
  · simp [initDP]
  · intro v u h
    simp [initDP] at h
  · rfl
  · intro v hv _
    simp only [initDP] at hv
    by_cases hvs : v = s
    · exact hvs
    · rw [if_neg hvs] at hv
      exact absurd rfl hv
  · intro v _
    exact ⟨[v], Chain.last v rfl⟩

/-- Telescoping predecessor chains into walks: every member `v` of the
predecessor chain of `u` yields a walk from `v` to `u` whose cost fits
between the two distances. -/
theorem chain_walk {A : Nat → List Edge} {n : Nat} {f : ℚ → ℚ} {s : Nat} {dp : DP}
    (hg : GInv A n f s dp) {u : Nat} {l : List Nat}
    (hc : Chain dp.path u l) :
    ∀ v ∈ l, ∃ steps, IsWalk A v steps u ∧
      dp.dist v + (costF f steps : WithTop ℚ) ≤ dp.dist u := by
  induction hc with
  | last x hnone =>
    intro v hv
    rw [List.mem_singleton] at hv
    subst hv
    exact ⟨[], rfl, by simp [costF_nil]⟩
  | step x y l hsome hcy ih =>
    intro v hv
    rcases List.mem_cons.mp hv with rfl | hvl
    · exact ⟨[], rfl, by simp [costF_nil]⟩
    · obtain ⟨steps, hw, hle⟩ := ih v hvl
      obtain ⟨_, _, _, e, he, hdest, hwt⟩ := hg.pred x y hsome
      subst hdest
      refine ⟨steps ++ [(e.dest, e.weight)], isWalk_snoc hw he, ?_⟩
      rw [costF_snoc]
      push_cast
      rw [← add_assoc]
      calc dp.dist v + ((costF f steps : ℚ) : WithTop ℚ) + ((f e.weight : ℚ) : WithTop ℚ)
          ≤ dp.dist y + ((f e.weight : ℚ) : WithTop ℚ) := add_le_add_right hle _
        _ ≤ dp.dist e.dest := hwt

/-- Preservation of the invariant bundle by one relaxation through an
actual edge, assuming every reachable cycle has nonnegative cost. -/
theorem GInv_relaxW {A : Nat → List Edge} {n : Nat} {f : ℚ → ℚ} {s : Nat} {dp : DP}
    (hcyc : CycleNonnegF A f s)
    {u : Nat} (hu : u < n) {e : Edge} (he : e ∈ A u)
    (hg : GInv A n f s dp) :
    GInv A n f s (relaxW u e.dest (f e.weight) dp) := by
  by_cases hcond : dp.dist u + ((f e.weight : ℚ) : WithTop ℚ) < dp.dist e.dest
  case neg =>
    rw [relaxW_of_not_lt _ _ _ _ hcond]
    exact hg
  case pos =>
  have hdu : dp.dist u ≠ ⊤ := lt_imp_ne_top hcond
  obtain ⟨su, hsu, hcu⟩ := hg.wit u hdu
  have hwalkv : IsWalk A s (su ++ [(e.dest, e.weight)]) e.dest := isWalk_snoc hsu he
  -- the relaxed vertex is not the source
  have hvs : e.dest ≠ s := by
    intro hveq
    have hcycle : IsWalk A s (su ++ [(e.dest, e.weight)]) s := hveq ▸ hwalkv
    have h0 := hcyc s (su ++ [(e.dest, e.weight)]) ⟨[], rfl⟩ hcycle
    rw [costF_snoc] at h0
    rw [hveq, hg.src, hcu] at hcond
    have : (costF f su + f e.weight : ℚ) < 0 := by exact_mod_cast hcond
    linarith
  -- a relaxing self-loop would be a reachable negative cycle
  have huv : u ≠ e.dest := by
    intro hueq
    have h0 := hcyc u [(e.dest, e.weight)] ⟨su, hsu⟩
      (by rw [hueq]; exact isWalk_single (hueq ▸ he))
    rw [costF_cons, costF_nil, add_zero] at h0
    rw [← hueq, hcu] at hcond
    have : (costF f su + f e.weight : ℚ) < costF f su := by exact_mod_cast hcond
    linarith
  -- the predecessor chain of u does not pass through e.dest
  obtain ⟨lu, hlu⟩ := hg.chain u hdu
  have hvlu : e.dest ∉ lu := by
    intro hmem
    obtain ⟨svu, hsvu, hsvu_le⟩ := chain_walk hg hlu e.dest hmem
    have hdv : dp.dist e.dest ≠ ⊤ := by
      intro htop
      rw [htop, top_add] at hsvu_le
      exact hdu (top_le_iff.mp hsvu_le)
    obtain ⟨sv, hsv, hcv⟩ := hg.wit e.dest hdv
    have hcycle : IsWalk A e.dest (svu ++ [(e.dest, e.weight)]) e.dest :=
      isWalk_snoc hsvu he
    have h0 := hcyc e.dest _ ⟨sv, hsv⟩ hcycle
    rw [costF_snoc] at h0
    rw [hcu, hcv] at hcond
    rw [hcu, hcv] at hsvu_le
    have h1 : (costF f su + f e.weight : ℚ) < costF f sv := by exact_mod_cast hcond
    have h2 : (costF f sv + costF f svu : ℚ) ≤ costF f su := by exact_mod_cast hsvu_le
    linarith
  rw [relaxW_of_lt _ _ _ _ hcond]
  -- the updated distances are pointwise below the old ones
  have hdist_le : ∀ x,
      Function.update dp.dist e.dest (dp.dist u + ((f e.weight : ℚ) : WithTop ℚ)) x ≤
        dp.dist x := by
    intro x
    by_cases hxe : x = e.dest
    · subst hxe
      rw [Function.update_same]
      exact le_of_lt hcond
    · rw [Function.update_noteq hxe]
  -- the new chain of the relaxed vertex
  have hchain_v : Chain (Function.update dp.path e.dest (some u)) e.dest (e.dest :: lu) := by
    refine Chain.step e.dest u lu (Function.update_same _ _ _) ?_
    exact chain_update_not_mem hlu hvlu
  refine ⟨?_, ?_, ?_, ?_, ?_, ?_⟩
  · -- witness walks
    intro x hx
    by_cases hxe : x = e.dest
    · subst hxe
      refine ⟨su ++ [(e.dest, e.weight)], hwalkv, ?_⟩
      show Function.update dp.dist e.dest _ e.dest = _
      rw [Function.update_same, hcu, costF_snoc, WithTop.coe_add]
    · rw [show (⟨Function.update dp.dist e.dest (dp.dist u + ((f e.weight : ℚ) : WithTop ℚ)),
          Function.update dp.path e.dest (some u)⟩ : DP).dist = Function.update dp.dist
          e.dest (dp.dist u + ((f e.weight : ℚ) : WithTop ℚ)) from rfl] at hx ⊢
      rw [Function.update_noteq hxe] at hx ⊢
      exact hg.wit x hx
  · -- source distance
    show Function.update dp.dist e.dest _ s = 0
    rw [Function.update_noteq (Ne.symm hvs)]
    exact hg.src
  · -- predecessor links
    intro x y hxy
    by_cases hxe : x = e.dest
    · subst hxe
      rw [show (⟨Function.update dp.dist e.dest (dp.dist u + ((f e.weight : ℚ) : WithTop ℚ)),
          Function.update dp.path e.dest (some u)⟩ : DP).path = Function.update dp.path
          e.dest (some u) from rfl, Function.update_same] at hxy
      obtain rfl : u = y := Option.some.inj hxy
      refine ⟨hu, ?_, ?_, e, he, rfl, ?_⟩
      · show Function.update dp.dist e.dest _ e.dest ≠ ⊤
        rw [Function.update_same, hcu, ← WithTop.coe_add]
        exact WithTop.coe_ne_top
      · show Function.update dp.dist e.dest _ u ≠ ⊤
        rw [Function.update_noteq huv]
        exact hdu
      · show Function.update dp.dist e.dest _ u + _ ≤ Function.update dp.dist e.dest _ e.dest
        rw [Function.update_noteq huv, Function.update_same]
    · rw [show (⟨Function.update dp.dist e.dest (dp.dist u + ((f e.weight : ℚ) : WithTop ℚ)),
          Function.update dp.path e.dest (some u)⟩ : DP).path = Function.update dp.path
          e.dest (some u) from rfl, Function.update_noteq hxe] at hxy
      obtain ⟨hyn, hdx, hdy, e', he', hdest', hwt'⟩ := hg.pred x y hxy
      refine ⟨hyn, ?_, ?_, e', he', hdest', ?_⟩
      · show Function.update dp.dist e.dest _ x ≠ ⊤
        rw [Function.update_noteq hxe]
        exact hdx
      · show Function.update dp.dist e.dest _ y ≠ ⊤
        by_cases hye : y = e.dest
        · subst hye
          rw [Function.update_same, hcu, ← WithTop.coe_add]
          exact WithTop.coe_ne_top
        · rw [Function.update_noteq hye]
          exact hdy
      · show Function.update dp.dist e.dest _ y + _ ≤ Function.update dp.dist e.dest _ x
        rw [Function.update_noteq hxe]
        calc Function.update dp.dist e.dest
              (dp.dist u + ((f e.weight : ℚ) : WithTop ℚ)) y + ((f e'.weight : ℚ) : WithTop ℚ)
            ≤ dp.dist y + ((f e'.weight : ℚ) : WithTop ℚ) := add_le_add_right (hdist_le y) _
          _ ≤ dp.dist x := hwt'
  · -- source has no predecessor
    show Function.update dp.path e.dest (some u) s = none
    rw [Function.update_noteq (Ne.symm hvs)]
    exact hg.srcpath
  · -- only the source is a finite root
    intro x hx hpx
    by_cases hxe : x = e.dest
    · subst hxe
      rw [show (⟨Function.update dp.dist e.dest (dp.dist u + ((f e.weight : ℚ) : WithTop ℚ)),
          Function.update dp.path e.dest (some u)⟩ : DP).path = Function.update dp.path
          e.dest (some u) from rfl, Function.update_same] at hpx
      exact absurd hpx (by simp)
    · rw [show (⟨Function.update dp.dist e.dest (dp.dist u + ((f e.weight : ℚ) : WithTop ℚ)),
          Function.update dp.path e.dest (some u)⟩ : DP).path = Function.update dp.path
          e.dest (some u) from rfl, Function.update_noteq hxe] at hpx
      rw [show (⟨Function.update dp.dist e.dest (dp.dist u + ((f e.weight : ℚ) : WithTop ℚ)),
          Function.update dp.path e.dest (some u)⟩ : DP).dist = Function.update dp.dist
          e.dest (dp.dist u + ((f e.weight : ℚ) : WithTop ℚ)) from rfl,
          Function.update_noteq hxe] at hx
      exact hg.root x hx hpx
  · -- chains terminate
    intro x hx
    by_cases hxe : x = e.dest
    · subst hxe
      exact ⟨e.dest :: lu, hchain_v⟩
    · rw [show (⟨Function.update dp.dist e.dest (dp.dist u + ((f e.weight : ℚ) : WithTop ℚ)),
          Function.update dp.path e.dest (some u)⟩ : DP).dist = Function.update dp.dist
          e.dest (dp.dist u + ((f e.weight : ℚ) : WithTop ℚ)) from rfl,
          Function.update_noteq hxe] at hx
      obtain ⟨lx, hlx⟩ := hg.chain x hx
      by_cases hvin : e.dest ∈ lx
      · obtain ⟨pre, suf, heq, hpre⟩ := mem_split_first hvin
        refine ⟨pre ++ (e.dest :: lu), ?_⟩
        refine chain_graft hlx pre e.dest suf (e.dest :: lu) heq ?_ hchain_v
        intro y hy
        have hyne : y ≠ e.dest := by
          intro hh
          rw [hh] at hy
          exact hpre hy
        exact Function.update_noteq hyne _ _
      · exact ⟨lx, chain_update_not_mem hlx hvin⟩

theorem addEdge_spec_witness :
    ((⟨[⟨0, [], 0, none⟩, ⟨1, [], 0, none⟩]⟩ : Graph ℕ).addEdge 0 1 5 true).2 = true ∧
    ((⟨[⟨0, [], 0, none⟩, ⟨1, [], 0, none⟩]⟩ : Graph ℕ).addEdge 0 1 5 true).1.vertexSet.length =
      (⟨[⟨0, [], 0, none⟩, ⟨1, [], 0, none⟩]⟩ : Graph ℕ).vertexSet.length ∧
    (((⟨[⟨0, [], 0, none⟩, ⟨1, [], 0, none⟩]⟩ : Graph ℕ).addEdge 0 1 5 true).1.vertexSet[0]? =
      ((⟨[⟨0, [], 0, none⟩, ⟨1, [], 0, none⟩]⟩ : Graph ℕ).vertexSet[0]?).map
        (fun v => v.addEdge 1 5 true)) ∧
    (∀ k, k ≠ 0 →
      ((⟨[⟨0, [], 0, none⟩, ⟨1, [], 0, none⟩]⟩ : Graph ℕ).addEdge 0 1 5 true).1.vertexSet[k]? =
        (⟨[⟨0, [], 0, none⟩, ⟨1, [], 0, none⟩]⟩ : Graph ℕ).vertexSet[k]?) :=
  (addEdge_spec (⟨[⟨0, [], 0, none⟩, ⟨1, [], 0, none⟩]⟩ : Graph ℕ) 0 1 5 true).2
    0 1 rfl rfl

/-! ## Final-state characterisation -/

/-- No edge can relax: the fixpoint condition of the relaxation
algorithms. -/
def Stable (A : Nat → List Edge) (n : Nat) (f : ℚ → ℚ) (dp : DP) : Prop :=
  ∀ u, u < n → ∀ e ∈ A u, dp.dist e.dest ≤ dp.dist u + ((f e.weight : ℚ) : WithTop ℚ)

theorem stable_walk_bound {A : Nat → List Edge} {n : Nat} {f : ℚ → ℚ} {s : Nat}
    {dp : DP} (hWF : WFadj A n) (hs : s < n) (hst : Stable A n f dp)
    (hsrc : dp.dist s = 0) :
    ∀ steps v, IsWalk A s steps v → dp.dist v ≤ ((costF f steps : ℚ) : WithTop ℚ) := by
  have key : ∀ steps (u v : Nat), u < n → IsWalk A u steps v →
      dp.dist v ≤ dp.dist u + ((costF f steps : ℚ) : WithTop ℚ) := by
    intro steps
    induction steps with
    | nil =>
      intro u v hu hw
      obtain rfl : u = v := hw
      simp [costF_nil]
    | cons st rest ih =>
      intro u v hu hw
      obtain ⟨⟨e, he, hd, hwt⟩, hrest⟩ := hw
      have hdn : st.1 < n := hd ▸ hWF u hu e he
      have h1 := ih st.1 v hdn hrest
      have h2 : dp.dist st.1 ≤ dp.dist u + ((f st.2 : ℚ) : WithTop ℚ) := by
        have := hst u hu e he
        rw [hd, hwt] at this
        exact this
      calc dp.dist v ≤ dp.dist st.1 + ((costF f rest : ℚ) : WithTop ℚ) := h1
        _ ≤ (dp.dist u + ((f st.2 : ℚ) : WithTop ℚ)) +
            ((costF f rest : ℚ) : WithTop ℚ) := add_le_add_right h2 _
        _ = dp.dist u + ((costF f (st :: rest) : ℚ) : WithTop ℚ) := by
            rw [costF_cons]
            push_cast
            rw [add_assoc]
  intro steps v hw
  have := key steps s v hs hw
  rw [hsrc, zero_add] at this
  exact this

/-- What it means for `d` to be the shortest-path outcome from `s` to
`v` under the weight interpretation `f`: `d = ⊤` exactly for
unreachable `v`; `d` is a lower bound on the cost of every walk; and a
finite `d` is attained by a walk of at most `n - 1` steps (hence by a
path). -/
def ShortestOutcome (A : Nat → List Edge) (n : Nat) (f : ℚ → ℚ) (s v : Nat)
    (d : WithTop ℚ) : Prop :=
  (d = ⊤ ↔ ¬ Reachable A s v) ∧
  (∀ steps, IsWalk A s steps v → d ≤ ((costF f steps : ℚ) : WithTop ℚ)) ∧
  (d ≠ ⊤ → ∃ steps, IsWalk A s steps v ∧ steps.length ≤ n - 1 ∧
    d = ((costF f steps : ℚ) : WithTop ℚ))

/-- Any state that satisfies the invariant bundle and gives every walk's
cost as a lower bound realises the shortest-path outcome. -/
theorem shortestOutcome_of_bound {A : Nat → List Edge} {n : Nat} {f : ℚ → ℚ}
    {s : Nat} {dp : DP} (hWF : WFadj A n) (hs : s < n)
    (hcyc : CycleNonnegF A f s) (hg : GInv A n f s dp)
    (hbd : ∀ v steps, IsWalk A s steps v → dp.dist v ≤ ((costF f steps : ℚ) : WithTop ℚ))
    (v : Nat) : ShortestOutcome A n f s v (dp.dist v) := by
  refine ⟨⟨?_, ?_⟩, hbd v, ?_⟩
  · intro htop ⟨steps, hw⟩
    have := hbd v steps hw
    rw [htop] at this
    exact absurd (top_le_iff.mp this) WithTop.coe_ne_top
  · intro hunreach
    by_contra hne
    obtain ⟨steps, hw, _⟩ := hg.wit v hne
    exact hunreach ⟨steps, hw⟩
  · intro hne
    obtain ⟨steps, hw, hc⟩ := hg.wit v hne
    obtain ⟨l, hl, hllen, hlc⟩ := walk_shorten hWF hs hcyc steps v hw
    refine ⟨l, hl, hllen, ?_⟩
    have h1 := hbd v l hl
    rw [hc] at h1 ⊢
    have h2 : (costF f steps : ℚ) ≤ costF f l := by exact_mod_cast h1
    have : costF f l = costF f steps := le_antisymm hlc h2
    rw [this]

/-! ## Bellman-Ford -/

/-- Write the scratch state back into the vertex list (the in-place
mutations of the run, read off at the end). -/
def writeBackAux (dp : DP) : Nat → List (Vertex T) → List (Vertex T)
  | _, [] => []
  | i, v :: vs =>
      { v with dist := dp.dist i, path := dp.path i } :: writeBackAux dp (i + 1) vs

def Graph.writeBack (g : Graph T) (dp : DP) : Graph T :=
  ⟨writeBackAux dp 0 g.vertexSet⟩

/-- One full relaxation pass of `Graph<T>::bellmanFordShortestPath`:
`for (auto v : vertexSet) for (auto e : v->adj) relax`. -/
def bellmanPass (A : Nat → List Edge) (n : Nat) (dp : DP) : DP :=
  (List.range n).foldl
    (fun dp u => (A u).foldl (fun dp e => relaxW u e.dest e.weight dp) dp) dp

/-- `Graph<T>::bellmanFordShortestPath`: reset all vertices, set the
source to `0`, run `|vertexSet| - 1` full passes, then one extra full
pass (whose relaxations are applied; the commented-out negative-cycle
report is discarded). `none` models the null dereference when the
origin payload is absent. -/
def Graph.bellmanFordShortestPath (g : Graph T) (orig : T) : Option (Graph T) :=
  match g.findVertexIdx orig with
  | none => none
  | some s =>
      some (g.writeBack
        (bellmanPass g.adjf g.vertexSet.length
          ((bellmanPass g.adjf g.vertexSet.length)^[g.vertexSet.length - 1] (initDP s))))

theorem writeBackAux_get (dp : DP) (l : List (Vertex T)) :
    ∀ i k, (writeBackAux dp i l)[k]? =
      (l[k]?).map (fun v : Vertex T =>
        ({ v with dist := dp.dist (i + k), path := dp.path (i + k) } : Vertex T)) := by
  induction l with
  | nil => intro i k; rfl
  | cons v vs ih =>
    intro i k
    cases k with
    | zero => simp [writeBackAux]
    | succ k =>
      simp only [writeBackAux, List.getElem?_cons_succ]
      rw [ih (i + 1) k]
      have harith : i + 1 + k = i + (k + 1) := by omega
      rw [harith]

theorem writeBack_get (g : Graph T) (dp : DP) (k : Nat) :
    (g.writeBack dp).vertexSet[k]? =
      (g.vertexSet[k]?).map (fun v => { v with dist := dp.dist k, path := dp.path k }) := by
  unfold Graph.writeBack
  rw [show (⟨writeBackAux dp 0 g.vertexSet⟩ : Graph T).vertexSet =
    writeBackAux dp 0 g.vertexSet from rfl, writeBackAux_get dp g.vertexSet 0 k]
  simp

theorem writeBack_length (g : Graph T) (dp : DP) :
    (g.writeBack dp).vertexSet.length = g.vertexSet.length := by
  show (writeBackAux dp 0 g.vertexSet).length = _
  generalize 0 = i
  induction g.vertexSet generalizing i with
  | nil => rfl
  | cons v vs ih => simp [writeBackAux, ih]

/-! Monotonicity of the relaxation folds. -/

theorem foldl_relax_dist_le (u : Nat) (es : List Edge) (dp : DP) (x : Nat) :
    ((es.foldl (fun dp e => relaxW u e.dest e.weight dp) dp).dist x) ≤ dp.dist x := by
  induction es generalizing dp with
  | nil => exact le_rfl
  | cons e rest ih =>
    exact le_trans (ih (relaxW u e.dest e.weight dp)) (relaxW_dist_le u e.dest e.weight dp x)

theorem foldl_vertices_dist_le (us : List Nat) (A : Nat → List Edge) (dp : DP) (x : Nat) :
    ((us.foldl (fun dp u => (A u).foldl (fun dp e => relaxW u e.dest e.weight dp) dp) dp).dist x)
      ≤ dp.dist x := by
  induction us generalizing dp with
  | nil => exact le_rfl
  | cons u rest ih =>
    exact le_trans (ih _) (foldl_relax_dist_le u (A u) dp x)

theorem bellmanPass_dist_le (A : Nat → List Edge) (n : Nat) (dp : DP) (x : Nat) :
    (bellmanPass A n dp).dist x ≤ dp.dist x :=
  foldl_vertices_dist_le (List.range n) A dp x

theorem iterate_bellmanPass_dist_le (A : Nat → List Edge) (n : Nat) (dp : DP)
    (k : Nat) (x : Nat) :
    ((bellmanPass A n)^[k] dp).dist x ≤ dp.dist x := by
  induction k with
  | zero => exact le_rfl
  | succ k ih =>
    rw [Function.iterate_succ_apply']
    exact le_trans (bellmanPass_dist_le A n _ x) ih

/-! The pass processes every edge. -/

theorem relaxW_dist_dest_le (u v : Nat) (w : ℚ) (dp : DP) :
    (relaxW u v w dp).dist v ≤ dp.dist u + (w : WithTop ℚ) := by
  unfold relaxW
  split
  · rw [show (⟨Function.update dp.dist v (dp.dist u + (w : WithTop ℚ)),
      Function.update dp.path v (some u)⟩ : DP).dist = Function.update dp.dist v
      (dp.dist u + (w : WithTop ℚ)) from rfl, Function.update_same]
  · rename_i h
    exact le_of_not_lt h

theorem foldl_relax_edge_bound (u : Nat) (es : List Edge) (dp : DP)
    {e : Edge} (he : e ∈ es) :
    ((es.foldl (fun dp e => relaxW u e.dest e.weight dp) dp).dist e.dest) ≤
      dp.dist u + (e.weight : WithTop ℚ) := by
  induction es generalizing dp with
  | nil => simp at he
  | cons e' rest ih =>
    rcases List.mem_cons.mp he with rfl | hrest
    · calc ((rest.foldl (fun dp e => relaxW u e.dest e.weight dp)
            (relaxW u e.dest e.weight dp)).dist e.dest)
          ≤ (relaxW u e.dest e.weight dp).dist e.dest := foldl_relax_dist_le u rest _ _
        _ ≤ dp.dist u + (e.weight : WithTop ℚ) := relaxW_dist_dest_le u e.dest e.weight dp
    · calc ((rest.foldl (fun dp e => relaxW u e.dest e.weight dp)
            (relaxW u e'.dest e'.weight dp)).dist e.dest)
          ≤ (relaxW u e'.dest e'.weight dp).dist u + (e.weight : WithTop ℚ) := ih _ hrest
        _ ≤ dp.dist u + (e.weight : WithTop ℚ) :=
            add_le_add_right (relaxW_dist_le u e'.dest e'.weight dp u) _

theorem foldl_vertices_edge_bound (A : Nat → List Edge) (us : List Nat) (dp : DP)
    {u : Nat} (hu : u ∈ us) {e : Edge} (he : e ∈ A u) :
    ((us.foldl (fun dp u => (A u).foldl (fun dp e => relaxW u e.dest e.weight dp) dp) dp).dist
        e.dest) ≤ dp.dist u + (e.weight : WithTop ℚ) := by
  induction us generalizing dp with
  | nil => simp at hu
  | cons u' rest ih =>
    rcases List.mem_cons.mp hu with rfl | hrest
    · calc _ ≤ ((A u).foldl (fun dp e => relaxW u e.dest e.weight dp) dp).dist e.dest :=
          foldl_vertices_dist_le rest A _ _
        _ ≤ dp.dist u + (e.weight : WithTop ℚ) := foldl_relax_edge_bound u (A u) dp he
    · calc _ ≤ ((A u').foldl (fun dp e => relaxW u' e.dest e.weight dp) dp).dist u +
            (e.weight : WithTop ℚ) := ih _ hrest
        _ ≤ dp.dist u + (e.weight : WithTop ℚ) :=
            add_le_add_right (foldl_relax_dist_le u' (A u') dp u) _

theorem bellmanPass_edge_bound (A : Nat → List Edge) (n : Nat) (dp : DP)
    {u : Nat} (hu : u < n) {e : Edge} (he : e ∈ A u) :
    (bellmanPass A n dp).dist e.dest ≤ dp.dist u + (e.weight : WithTop ℚ) :=
  foldl_vertices_edge_bound A (List.range n) dp (List.mem_range.mpr hu) he

/-! The invariant bundle is maintained by the passes. -/

theorem GInv_relax_edges {A : Nat → List Edge} {n : Nat} {s : Nat}
    (hcyc : CycleNonnegF A id s) {u : Nat} (hu : u < n)
    (es : List Edge) : ∀ dp, (∀ e ∈ es, e ∈ A u) → GInv A n id s dp →
    GInv A n id s (es.foldl (fun dp e => relaxW u e.dest e.weight dp) dp) := by
  induction es with
  | nil => intro dp _ hg; exact hg
  | cons e rest ih =>
    intro dp hes hg
    exact ih _ (fun e' he' => hes e' (List.mem_cons_of_mem _ he'))
      (GInv_relaxW hcyc hu (hes e (List.mem_cons_self e rest)) hg)

theorem GInv_bellmanPass {A : Nat → List Edge} {n : Nat} {s : Nat} {dp : DP}
    (hcyc : CycleNonnegF A id s) (hg : GInv A n id s dp) :
    GInv A n id s (bellmanPass A n dp) := by
  unfold bellmanPass
  have : ∀ us : List Nat, (∀ u ∈ us, u < n) → ∀ dp, GInv A n id s dp →
      GInv A n id s (us.foldl
        (fun dp u => (A u).foldl (fun dp e => relaxW u e.dest e.weight dp) dp) dp) := by
    intro us
    induction us with
    | nil => intro _ dp hg; exact hg
    | cons u rest ih =>
      intro hus dp hg
      refine ih (fun x hx => hus x (List.mem_cons_of_mem _ hx)) _ ?_
      exact GInv_relax_edges hcyc (hus u (List.mem_cons_self u rest)) (A u) dp
        (fun _ he => he) hg
  exact this (List.range n) (fun x hx => List.mem_range.mp hx) dp hg

theorem GInv_iterate_bellmanPass {A : Nat → List Edge} {n : Nat} {s : Nat} {dp : DP}
    (hcyc : CycleNonnegF A id s) (hg : GInv A n id s dp) (k : Nat) :
    GInv A n id s ((bellmanPass A n)^[k] dp) := by
  induction k with
  | zero => exact hg
  | succ k ih =>
    rw [Function.iterate_succ_apply']
    exact GInv_bellmanPass hcyc ih

/-- After `k` passes, every walk of at most `k` steps bounds the
distance of its endpoint. -/
theorem iterate_bellmanPass_walk_bound {A : Nat → List Edge} {n : Nat} {s : Nat}
    (hWF : WFadj A n) (hs : s < n) :
    ∀ k steps (v : Nat), steps.length ≤ k → IsWalk A s steps v →
      ((bellmanPass A n)^[k] (initDP s)).dist v ≤ ((costF id steps : ℚ) : WithTop ℚ) := by
  intro k
  induction k with
  | zero =>
    intro steps v hlen hw
    have : steps = [] := List.length_eq_zero.mp (Nat.le_zero.mp hlen)
    subst this
    obtain rfl : s = v := hw
    simp [initDP, costF_nil]
  | succ k ih =>
    intro steps v hlen hw
    rcases List.eq_nil_or_concat steps with rfl | ⟨init, st, rfl⟩
    · obtain rfl : s = v := hw
      have h1 : ((bellmanPass A n)^[k + 1] (initDP s)).dist s ≤ (initDP s).dist s :=
        iterate_bellmanPass_dist_le A n _ _ s
      simp only [initDP, if_pos rfl] at h1
      simpa [costF_nil] using h1
    · rw [List.concat_eq_append] at hw ⊢
      rw [isWalk_append] at hw
      obtain ⟨m, hw1, hw2⟩ := hw
      obtain ⟨⟨e, he, hd, hwt⟩, hlast⟩ := hw2
      have hv : st.1 = v := hlast
      have hm : m < n := isWalk_end_lt hWF hs hw1
      rw [Function.iterate_succ_apply']
      have h1 : (bellmanPass A n ((bellmanPass A n)^[k] (initDP s))).dist e.dest ≤
          ((bellmanPass A n)^[k] (initDP s)).dist m + (e.weight : WithTop ℚ) :=
        bellmanPass_edge_bound A n _ hm he
      have h2 := ih init m (by simpa using hlen) hw1
      rw [hd, hv, hwt] at h1
      calc (bellmanPass A n ((bellmanPass A n)^[k] (initDP s))).dist v
          ≤ ((bellmanPass A n)^[k] (initDP s)).dist m + ((st.2 : ℚ) : WithTop ℚ) := h1
        _ ≤ ((costF id init : ℚ) : WithTop ℚ) + ((st.2 : ℚ) : WithTop ℚ) :=
            add_le_add_right h2 _
        _ = ((costF id (init ++ [st]) : ℚ) : WithTop ℚ) := by
            rw [show st = (st.1, st.2) from rfl, costF_snoc, id_eq, WithTop.coe_add]

theorem findIdx?_some_getElem? {α : Type} (q : α → Bool) :
    ∀ (l : List α) (i : Nat), List.findIdx? q l = some i →
      ∃ x, l[i]? = some x ∧ q x = true := by
  intro l
  induction l with
  | nil => intro i h; simp [List.findIdx?] at h
  | cons a l ih =>
    intro i h
    rw [List.findIdx?_cons] at h
    by_cases hqa : q a
    · rw [if_pos hqa] at h
      obtain rfl : 0 = i := Option.some.inj h
      exact ⟨a, by simp, hqa⟩
    · rw [if_neg hqa, List.findIdx?_succ] at h
      obtain ⟨j, hj, hji⟩ := Option.map_eq_some'.mp h
      obtain ⟨x, hx, hqx⟩ := ih j hj
      subst hji
      exact ⟨x, by simpa using hx, hqx⟩

theorem findVertexIdx_some_spec (g : Graph T) (p : T) (i : Nat)
    (h : g.findVertexIdx p = some i) :
    i < g.vertexSet.length ∧
      ∃ vert, g.vertexSet[i]? = some vert ∧ vert.info = p := by
  unfold Graph.findVertexIdx at h
  obtain ⟨x, hx, hqx⟩ := findIdx?_some_getElem? _ _ _ h
  refine ⟨?_, x, hx, of_decide_eq_true hqx⟩
  by_contra hge
  push_neg at hge
  rw [List.getElem?_eq_none hge] at hx
  exact absurd hx (by simp)

/-- Nonnegative interpreted weights make every walk cost nonnegative. -/
theorem walk_costF_nonneg {A : Nat → List Edge} {n : Nat} {f : ℚ → ℚ}
    (hWF : WFadj A n) (hf : ∀ u, u < n → ∀ e ∈ A u, 0 ≤ f e.weight) :
    ∀ steps (u v : Nat), u < n → IsWalk A u steps v → 0 ≤ costF f steps := by
  intro steps
  induction steps with
  | nil => intro u v _ _; simp [costF_nil]
  | cons st rest ih =>
    intro u v hu hw
    obtain ⟨⟨e, he, hd, hwt⟩, hrest⟩ := hw
    have h1 : 0 ≤ f st.2 := hwt ▸ hf u hu e he
    have h2 : 0 ≤ costF f rest := ih st.1 v (hd ▸ hWF u hu e he) hrest
    rw [costF_cons]
    linarith

theorem cycleNonnegF_of_nonneg {A : Nat → List Edge} {n : Nat} {f : ℚ → ℚ} {s : Nat}
    (hWF : WFadj A n) (hs : s < n)
    (hf : ∀ u, u < n → ∀ e ∈ A u, 0 ≤ f e.weight) : CycleNonnegF A f s := by
  intro v steps hreach hw
  obtain ⟨sr, hsr⟩ := hreach
  have hv : v < n := isWalk_end_lt hWF hs hsr
  exact walk_costF_nonneg hWF hf steps v v hv hw

/-- C4: `bellmanFordShortestPath` resets every vertex, sets the source
distance to `0`, relaxes every edge of the graph in `|vertexSet| - 1`
full passes, then applies exactly one additional full relaxation pass
whose relaxations take effect but whose negative-cycle detection is not
reported (the structural conjunct exposes exactly this shape); and for
every graph with no negative cycle reachable from the source (negative
edge weights permitted), each vertex's `dist` afterwards is the
shortest-path outcome: `⊤` exactly for unreachable vertices, otherwise
the minimum total weight of a walk (equivalently, of a path) from the
source. -/
theorem bellmanFord_correct (g : Graph T) (o : T) (s : Nat)
    (hWF : WFadj g.adjf g.vertexSet.length)
    (hfind : g.findVertexIdx o = some s)
    (hcyc : CycleNonnegF g.adjf id s) :
    ∃ st, g.bellmanFordShortestPath o = some st ∧
    st = g.writeBack (bellmanPass g.adjf g.vertexSet.length
        ((bellmanPass g.adjf g.vertexSet.length)^[g.vertexSet.length - 1] (initDP s))) ∧
    ∀ v vert, st.vertexSet[v]? = some vert →
      ShortestOutcome g.adjf g.vertexSet.length id s v vert.dist := by
  have hs : s < g.vertexSet.length := (findVertexIdx_some_spec g o s hfind).1
  refine ⟨_, ?_, rfl, ?_⟩
  · unfold Graph.bellmanFordShortestPath
    rw [hfind]
  intro v vert hv
  rw [writeBack_get] at hv
  obtain ⟨vg, hvg, rfl⟩ := Option.map_eq_some'.mp hv
  have hg : GInv g.adjf g.vertexSet.length id s
      (bellmanPass g.adjf g.vertexSet.length
        ((bellmanPass g.adjf g.vertexSet.length)^[g.vertexSet.length - 1] (initDP s))) :=
    GInv_bellmanPass hcyc (GInv_iterate_bellmanPass hcyc GInv_init _)
  have hbd : ∀ x steps, IsWalk g.adjf s steps x →
      (bellmanPass g.adjf g.vertexSet.length
        ((bellmanPass g.adjf g.vertexSet.length)^[g.vertexSet.length - 1]
          (initDP s))).dist x ≤ ((costF id steps : ℚ) : WithTop ℚ) := by
    intro x steps hwx
    obtain ⟨l, hl, hlen, hlc⟩ := walk_shorten hWF hs hcyc steps x hwx
    have h1 := iterate_bellmanPass_walk_bound hWF hs (g.vertexSet.length - 1) l x hlen hl
    calc (bellmanPass g.adjf g.vertexSet.length
          ((bellmanPass g.adjf g.vertexSet.length)^[g.vertexSet.length - 1]
            (initDP s))).dist x
        ≤ ((bellmanPass g.adjf g.vertexSet.length)^[g.vertexSet.length - 1]
            (initDP s)).dist x := bellmanPass_dist_le _ _ _ _
      _ ≤ ((costF id l : ℚ) : WithTop ℚ) := h1
      _ ≤ ((costF id steps : ℚ) : WithTop ℚ) := by exact_mod_cast hlc
  exact shortestOutcome_of_bound hWF hs hcyc hg hbd v

/-- A two-vertex graph with one negative edge `0 → 1` of weight `-1`
(no cycle at all, hence no negative cycle reachable from `0`). -/
def exBF : Graph ℕ :=
  ⟨[⟨0, [⟨1, -1, true⟩], 0, none⟩, ⟨1, [], 0, none⟩]⟩

theorem exBF_adjf_other (u : Nat) (hu : u ≠ 0) : exBF.adjf u = [] := by
  match u with
  | 0 => exact absurd rfl hu
  | 1 => rfl
  | u + 2 =>
    show ((exBF.vertexSet[u + 2]?).map Vertex.adj).getD [] = []
    rw [List.getElem?_eq_none (by simp [exBF])]
    rfl

theorem exBF_cycleNonneg : CycleNonnegF exBF.adjf id 0 := by
  intro v steps hreach hw
  cases steps with
  | nil => simp [costF_nil]
  | cons st rest =>
    obtain ⟨⟨e, he, hd, hwt⟩, hrest⟩ := hw
    by_cases hv0 : v = 0
    · subst hv0
      rw [show exBF.adjf 0 = [⟨1, -1, true⟩] from rfl, List.mem_singleton] at he
      subst he
      have hst : st.1 = 1 := hd.symm
      cases rest with
      | nil =>
        have : st.1 = 0 := hrest
        omega
      | cons st2 rest2 =>
        obtain ⟨⟨e2, he2, _, _⟩, _⟩ := hrest
        rw [hst, show exBF.adjf 1 = [] from rfl] at he2
        simp at he2
    · rw [exBF_adjf_other v hv0] at he
      simp at he

theorem bellmanFord_correct_witness :
    ∃ st, exBF.bellmanFordShortestPath 0 = some st ∧
    st = exBF.writeBack (bellmanPass exBF.adjf exBF.vertexSet.length
        ((bellmanPass exBF.adjf exBF.vertexSet.length)^[exBF.vertexSet.length - 1]
          (initDP 0))) ∧
    ∀ v vert, st.vertexSet[v]? = some vert →
      ShortestOutcome exBF.adjf exBF.vertexSet.length id 0 v vert.dist :=
  bellmanFord_correct exBF 0 0 (by decide) (by decide) exBF_cycleNonneg

/-! ## Dijkstra -/

/-- Modelled from the spec: `MutablePriorityQueue.h` is not among the
provided sources, so the queue is modelled from the spec's contract for
it — "`extract_min()` removes and returns the element with smallest
key", the key being the element's current `dist` field. Extraction
returns the first element of the queue whose current `dist` is minimal,
together with the remaining queue. -/
def extractMinQ (dist : Nat → WithTop ℚ) : List Nat → Nat × List Nat
  | [] => (0, [])
  | [x] => (x, [])
  | x :: y :: rest =>
    let p := extractMinQ dist (y :: rest)
    if dist x ≤ dist p.1 then (x, y :: rest) else (p.1, x :: p.2)

/-- Processing one extracted vertex `u` of
`Graph<T>::dijkstraShortestPath`: for each outgoing edge, remember the
old destination distance, relax, and insert the destination into the
queue exactly when its old distance was `INF`. -/
def dijkVisit (A : Nat → List Edge) (u : Nat) (st : DP × List Nat) : DP × List Nat :=
  (A u).foldl (fun st e =>
    (relaxW u e.dest e.weight st.1,
     if st.1.dist u + (e.weight : WithTop ℚ) < st.1.dist e.dest ∧ st.1.dist e.dest = ⊤
     then st.2 ++ [e.dest] else st.2)) st

/-- The main loop of `dijkstraShortestPath` (`while(!q.empty())`),
with fuel; `n + 1` fuel is shown sufficient below. -/
def dijkLoop (A : Nat → List Edge) : Nat → DP × List Nat → DP × List Nat
  | 0, st => st
  | fuel + 1, st =>
    match st.2 with
    | [] => st
    | x :: xs =>
      let p := extractMinQ st.1.dist (x :: xs)
      dijkLoop A fuel (dijkVisit A p.1 (st.1, p.2))

/-- `Graph<T>::dijkstraShortestPath`: reset all vertices, set the
source to `0`, insert it, and loop extract-min/relax until the queue is
empty. `none` models the null dereference when the origin payload is
absent. -/
def Graph.dijkstraShortestPath (g : Graph T) (origin : T) : Option (Graph T) :=
  match g.findVertexIdx origin with
  | none => none
  | some s =>
      some (g.writeBack
        (dijkLoop g.adjf (g.vertexSet.length + 1) (initDP s, [s])).1)

theorem extractMinQ_mem (dist : Nat → WithTop ℚ) :
    ∀ q : List Nat, q ≠ [] → (extractMinQ dist q).1 ∈ q := by
  intro q
  induction q with
  | nil => intro h; exact absurd rfl h
  | cons x xs ih =>
    intro _
    cases xs with
    | nil => simp [extractMinQ]
    | cons y rest =>
      rw [show extractMinQ dist (x :: y :: rest) =
        (if dist x ≤ dist (extractMinQ dist (y :: rest)).1
         then (x, y :: rest)
         else ((extractMinQ dist (y :: rest)).1, x :: (extractMinQ dist (y :: rest)).2))
        from rfl]
      split
      · simp
      · have := ih (by simp)
        simp only [List.mem_cons] at this ⊢
        tauto

theorem extractMinQ_min (dist : Nat → WithTop ℚ) :
    ∀ q : List Nat, ∀ x ∈ q, dist (extractMinQ dist q).1 ≤ dist x := by
  intro q
  induction q with
  | nil => intro x hx; simp at hx
  | cons a xs ih =>
    intro x hx
    cases xs with
    | nil =>
      rw [List.mem_singleton] at hx
      subst hx
      exact le_rfl
    | cons y rest =>
      rw [show extractMinQ dist (a :: y :: rest) =
        (if dist a ≤ dist (extractMinQ dist (y :: rest)).1
         then (a, y :: rest)
         else ((extractMinQ dist (y :: rest)).1, a :: (extractMinQ dist (y :: rest)).2))
        from rfl]
      rcases List.mem_cons.mp hx with rfl | hx2
      · split
        · exact le_rfl
        · rename_i h
          exact le_of_not_le h
      · split
        · rename_i h
          exact le_trans h (ih x hx2)
        · exact ih x hx2

theorem extractMinQ_perm (dist : Nat → WithTop ℚ) :
    ∀ q : List Nat, q ≠ [] →
      List.Perm ((extractMinQ dist q).1 :: (extractMinQ dist q).2) q := by
  intro q
  induction q with
  | nil => intro h; exact absurd rfl h
  | cons x xs ih =>
    intro _
    cases xs with
    | nil => simp [extractMinQ]
    | cons y rest =>
      rw [show extractMinQ dist (x :: y :: rest) =
        (if dist x ≤ dist (extractMinQ dist (y :: rest)).1
         then (x, y :: rest)
         else ((extractMinQ dist (y :: rest)).1, x :: (extractMinQ dist (y :: rest)).2))
        from rfl]
      split
      · simp
      · have hp := ih (by simp)
        have h1 : List.Perm
            ((extractMinQ dist (y :: rest)).1 :: x :: (extractMinQ dist (y :: rest)).2)
            (x :: (extractMinQ dist (y :: rest)).1 :: (extractMinQ dist (y :: rest)).2) :=
          List.Perm.swap x _ _
        exact h1.trans (List.Perm.cons x hp)

/-- The number of vertices still at `INF` (part of the termination
measure of the loops). -/
def topCount (dp : DP) (n : Nat) : Nat :=
  ((Finset.range n).filter (fun v => dp.dist v = ⊤)).card

/-- The invariant of the Dijkstra loop: the generic bundle, plus —
queued vertices are real and finite, the queue has no duplicates,
settled (finite, dequeued) vertices are below every queued distance and
have all their edges relaxed. -/
structure DInv (A : Nat → List Edge) (n : Nat) (s : Nat) (dp : DP) (q : List Nat) : Prop where
  ginv : GInv A n id s dp
  qmem : ∀ x ∈ q, x < n ∧ dp.dist x ≠ ⊤
  qnodup : q.Nodup
  dmin : ∀ u, u < n → dp.dist u ≠ ⊤ → u ∉ q → ∀ x ∈ q, dp.dist u ≤ dp.dist x
  dstable : ∀ u, u < n → dp.dist u ≠ ⊤ → u ∉ q →
    ∀ e ∈ A u, dp.dist e.dest ≤ dp.dist u + (e.weight : WithTop ℚ)

/-- The invariant during the processing of the extracted vertex `m`
whose distance at extraction time is `d₀`. -/
structure DMid (A : Nat → List Edge) (n s m : Nat) (d₀ : WithTop ℚ)
    (st : DP × List Nat) : Prop where
  ginv : GInv A n id s st.1
  qmem : ∀ x ∈ st.2, x < n ∧ st.1.dist x ≠ ⊤
  qnodup : st.2.Nodup
  mlt : m < n
  mfin : d₀ ≠ ⊤
  mdist : st.1.dist m = d₀
  mnotq : m ∉ st.2
  done_le : ∀ u, u < n → st.1.dist u ≠ ⊤ → u ∉ st.2 → u ≠ m → st.1.dist u ≤ d₀
  done_stable : ∀ u, u < n → st.1.dist u ≠ ⊤ → u ∉ st.2 → u ≠ m →
    ∀ e ∈ A u, st.1.dist e.dest ≤ st.1.dist u + (e.weight : WithTop ℚ)
  q_ge : ∀ x ∈ st.2, d₀ ≤ st.1.dist x

theorem coe_nonneg_withTop {w : ℚ} (h : 0 ≤ w) :
    (0 : WithTop ℚ) ≤ ((w : ℚ) : WithTop ℚ) := by exact_mod_cast h

theorem not_lt_add_nonneg {a : WithTop ℚ} {w : ℚ} (hw : 0 ≤ w) :
    ¬ a + ((w : ℚ) : WithTop ℚ) < a :=
  not_lt.mpr (le_add_of_nonneg_right (coe_nonneg_withTop hw))

theorem topCount_update_of_top (dp : DP) (n v : Nat) (d : WithTop ℚ)
    (pth : Nat → Option Nat) (hv : v < n) (hold : dp.dist v = ⊤) (hnew : d ≠ ⊤) :
    topCount ⟨Function.update dp.dist v d, pth⟩ n + 1 = topCount dp n := by
  show ((Finset.range n).filter (fun x => Function.update dp.dist v d x = ⊤)).card + 1 =
    ((Finset.range n).filter (fun x => dp.dist x = ⊤)).card
  have hnotmem : v ∉ (Finset.range n).filter (fun x => Function.update dp.dist v d x = ⊤) := by
    simp [Function.update_same, hnew]
  have hins : ((Finset.range n).filter (fun x => dp.dist x = ⊤)) =
      insert v ((Finset.range n).filter (fun x => Function.update dp.dist v d x = ⊤)) := by
    ext x
    simp only [Finset.mem_insert, Finset.mem_filter, Finset.mem_range]
    by_cases hx : x = v
    · subst hx
      simp [hold, hv]
    · rw [Function.update_noteq hx]
      constructor
      · rintro ⟨h1, h2⟩
        exact Or.inr ⟨h1, h2⟩
      · rintro (rfl | ⟨h1, h2⟩)
        · exact absurd rfl hx
        · exact ⟨h1, h2⟩
  rw [hins, Finset.card_insert_of_not_mem hnotmem]

theorem topCount_update_of_ne_top (dp : DP) (n v : Nat) (d : WithTop ℚ)
    (pth : Nat → Option Nat) (hold : dp.dist v ≠ ⊤) (hnew : d ≠ ⊤) :
    topCount ⟨Function.update dp.dist v d, pth⟩ n = topCount dp n := by
  show ((Finset.range n).filter (fun x => Function.update dp.dist v d x = ⊤)).card =
    ((Finset.range n).filter (fun x => dp.dist x = ⊤)).card
  congr 1
  apply Finset.filter_congr
  intro x _
  by_cases hx : x = v
  · subst hx
    rw [Function.update_same]
    simp [hnew, hold]
  · rw [Function.update_noteq hx]

/-- The termination measure of the Dijkstra loop: queue length plus the
number of vertices still at `INF`. -/
def muDijk (st : DP × List Nat) (n : Nat) : Nat := st.2.length + topCount st.1 n

/-- One edge-processing step of `dijkVisit` preserves the mid-visit
invariant and the measure. -/
theorem DMid_step {A : Nat → List Edge} {n s m : Nat} {d₀ : WithTop ℚ}
    (hWF : WFadj A n) (hcyc : CycleNonnegF A id s)
    (hNN : ∀ u, u < n → ∀ e ∈ A u, 0 ≤ e.weight)
    {st : DP × List Nat} (hmid : DMid A n s m d₀ st) {e : Edge} (he : e ∈ A m) :
    DMid A n s m d₀
      (relaxW m e.dest e.weight st.1,
       if st.1.dist m + (e.weight : WithTop ℚ) < st.1.dist e.dest ∧ st.1.dist e.dest = ⊤
       then st.2 ++ [e.dest] else st.2) ∧
    muDijk (relaxW m e.dest e.weight st.1,
       if st.1.dist m + (e.weight : WithTop ℚ) < st.1.dist e.dest ∧ st.1.dist e.dest = ⊤
       then st.2 ++ [e.dest] else st.2) n = muDijk st n := by
  have hw0 : 0 ≤ e.weight := hNN m hmid.mlt e he
  have hginv : GInv A n id s (relaxW m e.dest e.weight st.1) :=
    GInv_relaxW hcyc hmid.mlt he hmid.ginv
  by_cases hcond : st.1.dist m + ((e.weight : ℚ) : WithTop ℚ) < st.1.dist e.dest
  case neg =>
    rw [relaxW_of_not_lt _ _ _ _ hcond, if_neg (fun h => hcond h.1)]
    exact ⟨hmid, rfl⟩
  case pos =>
  have hdm : st.1.dist e.dest ≠ st.1.dist m := by
    intro hh
    rw [hh] at hcond
    exact not_lt_add_nonneg hw0 hcond
  have hne : e.dest ≠ m := fun hh => hdm (by rw [hh])
  have hdestlt : e.dest < n := hWF m hmid.mlt e he
  have hnewfin : st.1.dist m + ((e.weight : ℚ) : WithTop ℚ) ≠ ⊤ := by
    rw [hmid.mdist]
    rcases WithTop.ne_top_iff_exists.mp hmid.mfin with ⟨q, hq⟩
    rw [← hq, ← WithTop.coe_add]
    exact WithTop.coe_ne_top
  have hginvX : GInv A n id s
      ⟨Function.update st.1.dist e.dest (st.1.dist m + ((e.weight : ℚ) : WithTop ℚ)),
       Function.update st.1.path e.dest (some m)⟩ := by
    rw [← relaxW_of_lt _ _ _ _ hcond]
    exact hginv
  rw [relaxW_of_lt _ _ _ _ hcond]
  by_cases htop : st.1.dist e.dest = ⊤
  case pos =>
    -- first improvement from INF: the destination is inserted
    rw [if_pos ⟨hcond, htop⟩]
    have hdnq : e.dest ∉ st.2 := fun hmem => (hmid.qmem e.dest hmem).2 htop
    refine ⟨⟨hginvX, ?_, ?_, hmid.mlt, hmid.mfin, ?_, ?_, ?_, ?_, ?_⟩, ?_⟩
    · -- qmem
      intro x hx
      rw [List.mem_append, List.mem_singleton] at hx
      rcases hx with hx | rfl
      · have hxd : x ≠ e.dest := fun hh => hdnq (hh ▸ hx)
        rw [show (⟨Function.update st.1.dist e.dest
            (st.1.dist m + ((e.weight : ℚ) : WithTop ℚ)),
            Function.update st.1.path e.dest (some m)⟩ : DP).dist x = st.1.dist x from
          Function.update_noteq hxd _ _]
        exact hmid.qmem x hx
      · refine ⟨hdestlt, ?_⟩
        rw [show (⟨Function.update st.1.dist e.dest
            (st.1.dist m + ((e.weight : ℚ) : WithTop ℚ)),
            Function.update st.1.path e.dest (some m)⟩ : DP).dist e.dest = _ from
          Function.update_same _ _ _]
        exact hnewfin
    · -- qnodup
      rw [List.nodup_append]
      refine ⟨hmid.qnodup, List.nodup_singleton _, ?_⟩
      intro a ha hb
      rw [List.mem_singleton] at hb
      subst hb
      exact hdnq ha
    · -- mdist
      rw [show (⟨Function.update st.1.dist e.dest
          (st.1.dist m + ((e.weight : ℚ) : WithTop ℚ)),
          Function.update st.1.path e.dest (some m)⟩ : DP).dist m = st.1.dist m from
        Function.update_noteq (Ne.symm hne) _ _]
      exact hmid.mdist
    · -- mnotq
      rw [List.mem_append, List.mem_singleton]
      rintro (h | h)
      · exact hmid.mnotq h
      · exact hne h.symm
    · -- done_le
      intro u hu hfin hnq hum
      rw [List.mem_append, List.mem_singleton] at hnq
      push_neg at hnq
      have hud : u ≠ e.dest := hnq.2
      rw [show (⟨Function.update st.1.dist e.dest
          (st.1.dist m + ((e.weight : ℚ) : WithTop ℚ)),
          Function.update st.1.path e.dest (some m)⟩ : DP).dist u = st.1.dist u from
        Function.update_noteq hud _ _] at hfin ⊢
      exact hmid.done_le u hu hfin hnq.1 hum
    · -- done_stable
      intro u hu hfin hnq hum e' he'
      rw [List.mem_append, List.mem_singleton] at hnq
      push_neg at hnq
      have hud : u ≠ e.dest := hnq.2
      rw [show (⟨Function.update st.1.dist e.dest
          (st.1.dist m + ((e.weight : ℚ) : WithTop ℚ)),
          Function.update st.1.path e.dest (some m)⟩ : DP).dist u = st.1.dist u from
        Function.update_noteq hud _ _] at hfin ⊢
      have hstep := hmid.done_stable u hu hfin hnq.1 hum e' he'
      calc (⟨Function.update st.1.dist e.dest
            (st.1.dist m + ((e.weight : ℚ) : WithTop ℚ)),
            Function.update st.1.path e.dest (some m)⟩ : DP).dist e'.dest
          ≤ st.1.dist e'.dest := by
            rw [← relaxW_of_lt _ _ _ _ hcond]
            exact relaxW_dist_le _ _ _ _ _
        _ ≤ st.1.dist u + ((e'.weight : ℚ) : WithTop ℚ) := hstep
    · -- q_ge
      intro x hx
      rw [List.mem_append, List.mem_singleton] at hx
      rcases hx with hx | rfl
      · have hxd : x ≠ e.dest := fun hh => hdnq (hh ▸ hx)
        rw [show (⟨Function.update st.1.dist e.dest
            (st.1.dist m + ((e.weight : ℚ) : WithTop ℚ)),
            Function.update st.1.path e.dest (some m)⟩ : DP).dist x = st.1.dist x from
          Function.update_noteq hxd _ _]
        exact hmid.q_ge x hx
      · rw [show (⟨Function.update st.1.dist e.dest
            (st.1.dist m + ((e.weight : ℚ) : WithTop ℚ)),
            Function.update st.1.path e.dest (some m)⟩ : DP).dist e.dest = _ from
          Function.update_same _ _ _, ← hmid.mdist]
        exact le_add_of_nonneg_right (coe_nonneg_withTop hw0)
    · -- measure: one more queued element, one fewer vertex at ⊤
      unfold muDijk
      simp only [List.length_append, List.length_cons, List.length_nil]
      have := topCount_update_of_top st.1 n e.dest
        (st.1.dist m + ((e.weight : ℚ) : WithTop ℚ))
        (Function.update st.1.path e.dest (some m)) hdestlt htop hnewfin
      omega
  case neg =>
    -- improvement of an already finite destination: no queue operation
    rw [if_neg (fun h => htop h.2)]
    have hdq : e.dest ∈ st.2 := by
      by_contra hdnq
      by_cases hdm2 : e.dest = m
      · exact hdm (by rw [hdm2])
      · have := hmid.done_le e.dest hdestlt htop hdnq hdm2
        rw [hmid.mdist] at hcond
        exact absurd (lt_of_lt_of_le hcond this) (not_lt_add_nonneg hw0)
    refine ⟨⟨hginvX, ?_, hmid.qnodup, hmid.mlt, hmid.mfin, ?_, hmid.mnotq, ?_, ?_, ?_⟩, ?_⟩
    · -- qmem
      intro x hx
      by_cases hxd : x = e.dest
      · subst hxd
        refine ⟨hdestlt, ?_⟩
        rw [show (⟨Function.update st.1.dist e.dest
            (st.1.dist m + ((e.weight : ℚ) : WithTop ℚ)),
            Function.update st.1.path e.dest (some m)⟩ : DP).dist e.dest = _ from
          Function.update_same _ _ _]
        exact hnewfin
      · rw [show (⟨Function.update st.1.dist e.dest
            (st.1.dist m + ((e.weight : ℚ) : WithTop ℚ)),
            Function.update st.1.path e.dest (some m)⟩ : DP).dist x = st.1.dist x from
          Function.update_noteq hxd _ _]
        exact hmid.qmem x hx
    · -- mdist
      rw [show (⟨Function.update st.1.dist e.dest
          (st.1.dist m + ((e.weight : ℚ) : WithTop ℚ)),
          Function.update st.1.path e.dest (some m)⟩ : DP).dist m = st.1.dist m from
        Function.update_noteq (Ne.symm hne) _ _]
      exact hmid.mdist
    · -- done_le
      intro u hu hfin hnq hum
      have hud : u ≠ e.dest := fun hh => hnq (hh ▸ hdq)
      rw [show (⟨Function.update st.1.dist e.dest
          (st.1.dist m + ((e.weight : ℚ) : WithTop ℚ)),
          Function.update st.1.path e.dest (some m)⟩ : DP).dist u = st.1.dist u from
        Function.update_noteq hud _ _] at hfin ⊢
      exact hmid.done_le u hu hfin hnq hum
    · -- done_stable
      intro u hu hfin hnq hum e' he'
      have hud : u ≠ e.dest := fun hh => hnq (hh ▸ hdq)
      rw [show (⟨Function.update st.1.dist e.dest
          (st.1.dist m + ((e.weight : ℚ) : WithTop ℚ)),
          Function.update st.1.path e.dest (some m)⟩ : DP).dist u = st.1.dist u from
        Function.update_noteq hud _ _] at hfin ⊢
      have hstep := hmid.done_stable u hu hfin hnq hum e' he'
      calc (⟨Function.update st.1.dist e.dest
            (st.1.dist m + ((e.weight : ℚ) : WithTop ℚ)),
            Function.update st.1.path e.dest (some m)⟩ : DP).dist e'.dest
          ≤ st.1.dist e'.dest := by
            rw [← relaxW_of_lt _ _ _ _ hcond]
            exact relaxW_dist_le _ _ _ _ _
        _ ≤ st.1.dist u + ((e'.weight : ℚ) : WithTop ℚ) := hstep
    · -- q_ge
      intro x hx
      by_cases hxd : x = e.dest
      · subst hxd
        rw [show (⟨Function.update st.1.dist e.dest
            (st.1.dist m + ((e.weight : ℚ) : WithTop ℚ)),
            Function.update st.1.path e.dest (some m)⟩ : DP).dist e.dest = _ from
          Function.update_same _ _ _, ← hmid.mdist]
        exact le_add_of_nonneg_right (coe_nonneg_withTop hw0)
      · rw [show (⟨Function.update st.1.dist e.dest
            (st.1.dist m + ((e.weight : ℚ) : WithTop ℚ)),
            Function.update st.1.path e.dest (some m)⟩ : DP).dist x = st.1.dist x from
          Function.update_noteq hxd _ _]
        exact hmid.q_ge x hx
    · -- measure unchanged
      unfold muDijk
      rw [topCount_update_of_ne_top st.1 n e.dest _ _ htop hnewfin]

/-- Folding `dijkVisit`'s edge processing over any sublist of the
extracted vertex's adjacency preserves the mid-visit invariant and the
measure, only decreases distances, and leaves every processed edge
relaxed relative to the extraction distance `d₀`. -/
theorem dijkVisit_fold {A : Nat → List Edge} {n s m : Nat} {d₀ : WithTop ℚ}
    (hWF : WFadj A n) (hcyc : CycleNonnegF A id s)
    (hNN : ∀ u, u < n → ∀ e ∈ A u, 0 ≤ e.weight) :
    ∀ es : List Edge, (∀ e ∈ es, e ∈ A m) → ∀ st, DMid A n s m d₀ st →
      DMid A n s m d₀ (es.foldl (fun st e =>
        (relaxW m e.dest e.weight st.1,
         if st.1.dist m + (e.weight : WithTop ℚ) < st.1.dist e.dest ∧ st.1.dist e.dest = ⊤
         then st.2 ++ [e.dest] else st.2)) st) ∧
      muDijk (es.foldl (fun st e =>
        (relaxW m e.dest e.weight st.1,
         if st.1.dist m + (e.weight : WithTop ℚ) < st.1.dist e.dest ∧ st.1.dist e.dest = ⊤
         then st.2 ++ [e.dest] else st.2)) st) n = muDijk st n ∧
      (∀ x, ((es.foldl (fun st e =>
        (relaxW m e.dest e.weight st.1,
         if st.1.dist m + (e.weight : WithTop ℚ) < st.1.dist e.dest ∧ st.1.dist e.dest = ⊤
         then st.2 ++ [e.dest] else st.2)) st).1.dist x) ≤ st.1.dist x) ∧
      (∀ e ∈ es, ((es.foldl (fun st e =>
        (relaxW m e.dest e.weight st.1,
         if st.1.dist m + (e.weight : WithTop ℚ) < st.1.dist e.dest ∧ st.1.dist e.dest = ⊤
         then st.2 ++ [e.dest] else st.2)) st).1.dist e.dest) ≤
          d₀ + (e.weight : WithTop ℚ)) := by
  intro es
  induction es with
  | nil =>
    intro _ st hmid
    exact ⟨hmid, rfl, fun x => le_rfl, fun e he => absurd he (by simp)⟩
  | cons e rest ih =>
    intro hes st hmid
    have he : e ∈ A m := hes e (List.mem_cons_self e rest)
    obtain ⟨hmid1, hmu1⟩ := DMid_step hWF hcyc hNN hmid he
    obtain ⟨hmidF, hmuF, hmonoF, hstabF⟩ :=
      ih (fun e' he' => hes e' (List.mem_cons_of_mem _ he')) _ hmid1
    have hmono1 : ∀ x, (relaxW m e.dest e.weight st.1).dist x ≤ st.1.dist x :=
      relaxW_dist_le m e.dest e.weight st.1
    refine ⟨hmidF, by rw [List.foldl_cons, hmuF, hmu1], ?_, ?_⟩
    · intro x
      exact le_trans (hmonoF x) (hmono1 x)
    · intro e' he'
      rcases List.mem_cons.mp he' with rfl | he2
      · have h1 : (relaxW m e'.dest e'.weight st.1).dist e'.dest ≤
            st.1.dist m + ((e'.weight : ℚ) : WithTop ℚ) :=
          relaxW_dist_dest_le m e'.dest e'.weight st.1
        rw [hmid.mdist] at h1
        exact le_trans (hmonoF e'.dest) h1
      · exact hstabF e' he2

/-- One full iteration of the Dijkstra loop (extract the minimum, relax
its edges) preserves the loop invariant and decreases the measure by
exactly one. -/
theorem DInv_iteration {A : Nat → List Edge} {n s : Nat}
    (hWF : WFadj A n) (hcyc : CycleNonnegF A id s)
    (hNN : ∀ u, u < n → ∀ e ∈ A u, 0 ≤ e.weight)
    (dp : DP) (q : List Nat) (hq : q ≠ [])
    (hinv : DInv A n s dp q) :
    DInv A n s (dijkVisit A (extractMinQ dp.dist q).1 (dp, (extractMinQ dp.dist q).2)).1
      (dijkVisit A (extractMinQ dp.dist q).1 (dp, (extractMinQ dp.dist q).2)).2 ∧
    muDijk (dijkVisit A (extractMinQ dp.dist q).1 (dp, (extractMinQ dp.dist q).2)) n + 1 =
      muDijk (dp, q) n := by
  have hmemq : (extractMinQ dp.dist q).1 ∈ q := extractMinQ_mem dp.dist q hq
  have hperm := extractMinQ_perm dp.dist q hq
  have hmlt : (extractMinQ dp.dist q).1 < n := (hinv.qmem _ hmemq).1
  have hmfin : dp.dist (extractMinQ dp.dist q).1 ≠ ⊤ := (hinv.qmem _ hmemq).2
  have hnodup2 : ((extractMinQ dp.dist q).1 :: (extractMinQ dp.dist q).2).Nodup :=
    (hperm.nodup_iff).mpr hinv.qnodup
  rw [List.nodup_cons] at hnodup2
  have hmid0 : DMid A n s (extractMinQ dp.dist q).1 (dp.dist (extractMinQ dp.dist q).1)
      (dp, (extractMinQ dp.dist q).2) := by
    refine ⟨hinv.ginv, ?_, hnodup2.2, hmlt, hmfin, rfl, hnodup2.1, ?_, ?_, ?_⟩
    · intro x hx
      exact hinv.qmem x (hperm.mem_iff.mp (List.mem_cons_of_mem _ hx))
    · intro u hu hfin hnq hum
      have hunq : u ∉ q := by
        intro huq
        rcases List.mem_cons.mp (hperm.mem_iff.mpr huq) with h | h
        · exact hum h
        · exact hnq h
      exact hinv.dmin u hu hfin hunq _ hmemq
    · intro u hu hfin hnq hum
      have hunq : u ∉ q := by
        intro huq
        rcases List.mem_cons.mp (hperm.mem_iff.mpr huq) with h | h
        · exact hum h
        · exact hnq h
      exact hinv.dstable u hu hfin hunq
    · intro x hx
      exact extractMinQ_min dp.dist q x (hperm.mem_iff.mp (List.mem_cons_of_mem _ hx))
  obtain ⟨hmidF, hmuF, hmonoF, hstabF⟩ :=
    dijkVisit_fold hWF hcyc hNN (A (extractMinQ dp.dist q).1) (fun _ he => he) _ hmid0
  unfold dijkVisit
  constructor
  · refine ⟨hmidF.ginv, hmidF.qmem, hmidF.qnodup, ?_, ?_⟩
    · -- dmin
      intro u hu hfin hnq x hx
      by_cases hum : u = (extractMinQ dp.dist q).1
      · subst hum
        rw [hmidF.mdist]
        exact hmidF.q_ge x hx
      · exact le_trans (hmidF.done_le u hu hfin hnq hum) (hmidF.q_ge x hx)
    · -- dstable
      intro u hu hfin hnq e he
      by_cases hum : u = (extractMinQ dp.dist q).1
      · subst hum
        have := hstabF e he
        rw [← hmidF.mdist] at this
        exact this
      · exact hmidF.done_stable u hu hfin hnq hum e he
  · -- measure
    have hlen : q.length = (extractMinQ dp.dist q).2.length + 1 := by
      have := hperm.length_eq
      simp only [List.length_cons] at this
      omega
    unfold muDijk at hmuF ⊢
    have epair : (dp, q).2.length + topCount (dp, q).1 n =
        q.length + topCount dp n := rfl
    have epair2 : (dp, (extractMinQ dp.dist q).2).2.length +
        topCount (dp, (extractMinQ dp.dist q).2).1 n =
        (extractMinQ dp.dist q).2.length + topCount dp n := rfl
    omega

/-- The loop invariant is established by the reset-plus-source
initialisation with the queue holding only the source. -/
theorem DInv_init {A : Nat → List Edge} {n s : Nat} (hs : s < n) :
    DInv A n s (initDP s) [s] := by
  refine ⟨GInv_init, ?_, List.nodup_singleton s, ?_, ?_⟩
  · intro x hx
    rw [List.mem_singleton] at hx
    subst hx
    refine ⟨hs, ?_⟩
    simp [initDP]
  · intro u _ hfin hnq
    rw [List.mem_singleton] at hnq
    exact absurd (by simp [initDP, hnq]) hfin
  · intro u _ hfin hnq
    rw [List.mem_singleton] at hnq
    exact absurd (by simp [initDP, hnq]) hfin

theorem dijkLoop_correct {A : Nat → List Edge} {n s : Nat}
    (hWF : WFadj A n) (hcyc : CycleNonnegF A id s)
    (hNN : ∀ u, u < n → ∀ e ∈ A u, 0 ≤ e.weight) :
    ∀ fuel (st : DP × List Nat), DInv A n s st.1 st.2 → muDijk st n ≤ fuel →
      DInv A n s (dijkLoop A fuel st).1 (dijkLoop A fuel st).2 ∧
        (dijkLoop A fuel st).2 = [] := by
  intro fuel
  induction fuel with
  | zero =>
    intro st hinv hmu
    have : st.2.length = 0 := by
      unfold muDijk at hmu
      omega
    have h2 : st.2 = [] := List.length_eq_zero.mp this
    rw [show dijkLoop A 0 st = st from rfl]
    exact ⟨hinv, h2⟩
  | succ fuel ih =>
    intro st hinv hmu
    obtain ⟨dp, q⟩ := st
    cases hq : q with
    | nil =>
      subst hq
      exact ⟨hinv, rfl⟩
    | cons x xs =>
      subst hq
      rw [show dijkLoop A (fuel + 1) (dp, x :: xs) =
        dijkLoop A fuel (dijkVisit A (extractMinQ dp.dist (x :: xs)).1
          (dp, (extractMinQ dp.dist (x :: xs)).2)) from rfl]
      obtain ⟨hinv2, hmu2⟩ := DInv_iteration hWF hcyc hNN dp (x :: xs) (by simp) hinv
      exact ih _ hinv2 (by omega)

/-- C1: for every well-formed graph with nonnegative edge weights and
every origin payload present in it, `dijkstraShortestPath` terminates
and leaves every vertex's `dist` field equal to the shortest-path
outcome from the source: `dist = INF` exactly for the vertices
unreachable from the source, and otherwise `dist` is a lower bound on
the total weight of every directed walk from the source and is attained
by a walk of at most `|vertexSet| - 1` edges (hence by a path); the
priority queue is modelled from the spec's contract
(`extract_min` returns the element with smallest current key). -/
theorem dijkstra_correct (g : Graph T) (o : T) (s : Nat)
    (hWF : WFadj g.adjf g.vertexSet.length)
    (hNN : ∀ u, u < g.vertexSet.length → ∀ e ∈ g.adjf u, 0 ≤ e.weight)
    (hfind : g.findVertexIdx o = some s) :
    ∃ st, g.dijkstraShortestPath o = some st ∧
      ∀ v vert, st.vertexSet[v]? = some vert →
        ShortestOutcome g.adjf g.vertexSet.length id s v vert.dist := by
  have hs : s < g.vertexSet.length := (findVertexIdx_some_spec g o s hfind).1
  have hcyc : CycleNonnegF g.adjf id s :=
    cycleNonnegF_of_nonneg hWF hs hNN
  refine ⟨g.writeBack (dijkLoop g.adjf (g.vertexSet.length + 1) (initDP s, [s])).1, ?_, ?_⟩
  · unfold Graph.dijkstraShortestPath
    rw [hfind]
  intro v vert hv
  rw [writeBack_get] at hv
  obtain ⟨vg, hvg, rfl⟩ := Option.map_eq_some'.mp hv
  have hmu0 : muDijk (initDP s, [s]) g.vertexSet.length ≤ g.vertexSet.length + 1 := by
    unfold muDijk topCount
    have := Finset.card_filter_le (Finset.range g.vertexSet.length)
      (fun v => (initDP s).dist v = ⊤)
    simp only [List.length_singleton]
    have h2 := Finset.card_range g.vertexSet.length
    omega
  obtain ⟨hinvF, hqF⟩ := dijkLoop_correct hWF hcyc hNN (g.vertexSet.length + 1)
    (initDP s, [s]) (DInv_init hs) hmu0
  have hstable : ∀ u, u < g.vertexSet.length → ∀ e ∈ g.adjf u,
      (dijkLoop g.adjf (g.vertexSet.length + 1) (initDP s, [s])).1.dist e.dest ≤
        (dijkLoop g.adjf (g.vertexSet.length + 1) (initDP s, [s])).1.dist u +
          ((e.weight : ℚ) : WithTop ℚ) := by
    intro u hu e he
    by_cases hfin : (dijkLoop g.adjf (g.vertexSet.length + 1) (initDP s, [s])).1.dist u = ⊤
    · rw [hfin, top_add]
      exact le_top
    · exact hinvF.dstable u hu hfin (by rw [hqF]; simp) e he
  have hbd : ∀ x steps, IsWalk g.adjf s steps x →
      (dijkLoop g.adjf (g.vertexSet.length + 1) (initDP s, [s])).1.dist x ≤
        ((costF id steps : ℚ) : WithTop ℚ) := by
    intro x steps hwx
    have hstable2 : Stable g.adjf g.vertexSet.length id
        (dijkLoop g.adjf (g.vertexSet.length + 1) (initDP s, [s])).1 := hstable
    exact stable_walk_bound hWF hs hstable2 hinvF.ginv.src steps x hwx
  exact shortestOutcome_of_bound hWF hs hcyc hinvF.ginv hbd v

/-- A three-vertex graph with nonnegative weights: `0 → 1` (weight 1),
`0 → 2` (weight 3), `1 → 2` (weight 1). -/
def exD : Graph ℕ :=
  ⟨[⟨0, [⟨1, 1, true⟩, ⟨2, 3, true⟩], 0, none⟩,
    ⟨1, [⟨2, 1, true⟩], 0, none⟩,
    ⟨2, [], 0, none⟩]⟩

theorem dijkstra_correct_witness :
    ∃ st, exD.dijkstraShortestPath 0 = some st ∧
      ∀ v vert, st.vertexSet[v]? = some vert →
        ShortestOutcome exD.adjf exD.vertexSet.length id 0 v vert.dist :=
  dijkstra_correct exD 0 0 (by decide) (by decide) (by decide)

/-! ## The unweighted (breadth-first) algorithm -/

/-- Processing one dequeued vertex of
`Graph<T>::unweightedShortestPath`: each outgoing edge is relaxed with
weight `1` (the stored weight is never read), and the destination is
pushed on every improvement. -/
def bfsVisit (A : Nat → List Edge) (u : Nat) (st : DP × List Nat) : DP × List Nat :=
  (A u).foldl (fun st e =>
    (relaxW u e.dest 1 st.1,
     if st.1.dist u + ((1 : ℚ) : WithTop ℚ) < st.1.dist e.dest
     then st.2 ++ [e.dest] else st.2)) st

/-- The FIFO loop of `unweightedShortestPath`, with fuel;
`n * n + 1` fuel is shown sufficient below. -/
def bfsLoop (A : Nat → List Edge) : Nat → DP × List Nat → DP × List Nat
  | 0, st => st
  | fuel + 1, st =>
    match st.2 with
    | [] => st
    | u :: r => bfsLoop A fuel (bfsVisit A u (st.1, r))

/-- `Graph<T>::unweightedShortestPath`: reset all vertices, set the
source to `0`, enqueue it, and process the FIFO queue to exhaustion.
`none` models the null dereference when the origin payload is
absent. -/
def Graph.unweightedShortestPath (g : Graph T) (orig : T) : Option (Graph T) :=
  match g.findVertexIdx orig with
  | none => none
  | some s =>
      some (g.writeBack
        (bfsLoop g.adjf (g.vertexSet.length * g.vertexSet.length + 1) (initDP s, [s])).1)

/-- The number of vertices with a finite distance. -/
def finCount (dp : DP) (n : Nat) : Nat :=
  ((Finset.range n).filter (fun v => dp.dist v ≠ ⊤)).card

theorem finCount_add_topCount (dp : DP) (n : Nat) :
    finCount dp n + topCount dp n = n := by
  unfold finCount topCount
  have h := @Finset.filter_card_add_filter_neg_card_eq_card _ (Finset.range n)
    (fun v => dp.dist v ≠ ⊤) (fun _ => inferInstance) (fun _ => inferInstance)
  rw [Finset.card_range] at h
  have h2 : ((Finset.range n).filter (fun a => ¬ dp.dist a ≠ ⊤)) =
      ((Finset.range n).filter (fun v => dp.dist v = ⊤)) := by
    apply Finset.filter_congr
    intro x _
    exact not_not
  rw [h2] at h
  exact h

/-- The invariant of the BFS loop: the generic bundle at unit edge
cost, every queued index is a real vertex, every vertex is either
queued or has all its edges relaxed, and every finite distance is a
natural number strictly below the number of finite vertices. -/
structure BInv (A : Nat → List Edge) (n s : Nat) (dp : DP) (q : List Nat) : Prop where
  ginv : GInv A n (fun _ => 1) s dp
  qmem : ∀ x ∈ q, x < n ∧ dp.dist x ≠ ⊤
  edge_inv : ∀ u, u < n →
    u ∈ q ∨ ∀ e ∈ A u, dp.dist e.dest ≤ dp.dist u + ((1 : ℚ) : WithTop ℚ)
  natval : ∀ v, dp.dist v = ⊤ ∨
    ∃ k : Nat, dp.dist v = ((k : ℚ) : WithTop ℚ) ∧ k + 1 ≤ finCount dp n

/-- Rank of a distance for the BFS termination measure. -/
def rankD (n : Nat) (d : WithTop ℚ) : Nat :=
  if d = ⊤ then n else min n (Int.toNat ⌊d.untop' 0⌋)

theorem rankD_coe_nat (n k : Nat) : rankD n ((k : ℚ) : WithTop ℚ) = min n k := by
  unfold rankD
  rw [if_neg WithTop.coe_ne_top]
  congr 1

/-- The BFS termination measure. -/
def muBFS (st : DP × List Nat) (n : Nat) : Nat :=
  st.2.length + Finset.sum (Finset.range n) (fun v => rankD n (st.1.dist v))

theorem rankD_top (n : Nat) : rankD n (⊤ : WithTop ℚ) = n := by
  unfold rankD
  rw [if_pos rfl]

theorem rankD_le (n : Nat) (d : WithTop ℚ) : rankD n d ≤ n := by
  unfold rankD
  split
  · exact le_rfl
  · exact Nat.min_le_left _ _

theorem finCount_le (dp : DP) (n : Nat) : finCount dp n ≤ n :=
  le_trans (Finset.card_filter_le _ _) (le_of_eq (Finset.card_range n))

theorem finCount_update_of_top (dp : DP) (n v : Nat) (d : WithTop ℚ)
    (pth : Nat → Option Nat) (hv : v < n) (hold : dp.dist v = ⊤) (hnew : d ≠ ⊤) :
    finCount ⟨Function.update dp.dist v d, pth⟩ n = finCount dp n + 1 := by
  have h1 := topCount_update_of_top dp n v d pth hv hold hnew
  have h2 := finCount_add_topCount dp n
  have h3 := finCount_add_topCount ⟨Function.update dp.dist v d, pth⟩ n
  omega

theorem finCount_update_of_ne_top (dp : DP) (n v : Nat) (d : WithTop ℚ)
    (pth : Nat → Option Nat) (hold : dp.dist v ≠ ⊤) (hnew : d ≠ ⊤) :
    finCount ⟨Function.update dp.dist v d, pth⟩ n = finCount dp n := by
  have h1 := topCount_update_of_ne_top dp n v d pth hold hnew
  have h2 := finCount_add_topCount dp n
  have h3 := finCount_add_topCount ⟨Function.update dp.dist v d, pth⟩ n
  omega

theorem sum_rank_update (dp : DP) (n t : Nat) (d : WithTop ℚ) (ht : t < n) :
    Finset.sum (Finset.range n) (fun v => rankD n (Function.update dp.dist t d v)) +
        rankD n (dp.dist t)
      = Finset.sum (Finset.range n) (fun v => rankD n (dp.dist v)) + rankD n d := by
  have h1 := Finset.sum_eq_sum_diff_singleton_add (Finset.mem_range.mpr ht)
    (fun v => rankD n (Function.update dp.dist t d v))
  have h2 := Finset.sum_eq_sum_diff_singleton_add (Finset.mem_range.mpr ht)
    (fun v => rankD n (dp.dist v))
  have hoff : ∀ v ∈ Finset.range n \ {t},
      rankD n (Function.update dp.dist t d v) = rankD n (dp.dist v) := by
    intro v hv
    rw [Finset.mem_sdiff, Finset.mem_singleton] at hv
    rw [Function.update_noteq hv.2]
  rw [Finset.sum_congr rfl hoff] at h1
  rw [h1, h2, Function.update_same]
  ring

/-- The invariant during the processing of the dequeued vertex `u`
whose distance at dequeue time is `d₀`. -/
structure BMid (A : Nat → List Edge) (n s u : Nat) (d₀ : WithTop ℚ)
    (st : DP × List Nat) : Prop where
  ginv : GInv A n (fun _ => 1) s st.1
  qmem : ∀ x ∈ st.2, x < n ∧ st.1.dist x ≠ ⊤
  ult : u < n
  udist : st.1.dist u = d₀
  ufin : d₀ ≠ ⊤
  edge_inv : ∀ w, w < n → w ≠ u →
    w ∈ st.2 ∨ ∀ e ∈ A w, st.1.dist e.dest ≤ st.1.dist w + ((1 : ℚ) : WithTop ℚ)
  natval : ∀ v, st.1.dist v = ⊤ ∨
    ∃ k : Nat, st.1.dist v = ((k : ℚ) : WithTop ℚ) ∧ k + 1 ≤ finCount st.1 n

theorem BMid_step {A : Nat → List Edge} {n s u : Nat} {d₀ : WithTop ℚ}
    (hWF : WFadj A n) (hcyc : CycleNonnegF A (fun _ => 1) s)
    {st : DP × List Nat} (hmid : BMid A n s u d₀ st) {e : Edge} (he : e ∈ A u) :
    BMid A n s u d₀
      (relaxW u e.dest 1 st.1,
       if st.1.dist u + ((1 : ℚ) : WithTop ℚ) < st.1.dist e.dest
       then st.2 ++ [e.dest] else st.2) ∧
    muBFS (relaxW u e.dest 1 st.1,
       if st.1.dist u + ((1 : ℚ) : WithTop ℚ) < st.1.dist e.dest
       then st.2 ++ [e.dest] else st.2) n ≤ muBFS st n ∧
    (∀ x, (relaxW u e.dest 1 st.1).dist x ≤ st.1.dist x) ∧
    (relaxW u e.dest 1 st.1).dist e.dest ≤ d₀ + ((1 : ℚ) : WithTop ℚ) := by
  have hmono := relaxW_dist_le u e.dest 1 st.1
  have hdest4 : (relaxW u e.dest 1 st.1).dist e.dest ≤ d₀ + ((1 : ℚ) : WithTop ℚ) := by
    have := relaxW_dist_dest_le u e.dest 1 st.1
    rw [hmid.udist] at this
    exact this
  by_cases hcond : st.1.dist u + ((1 : ℚ) : WithTop ℚ) < st.1.dist e.dest
  case neg =>
    rw [relaxW_of_not_lt _ _ _ _ hcond, if_neg hcond]
    exact ⟨hmid, le_rfl, fun x => le_rfl,
      by rw [relaxW_of_not_lt _ _ _ _ hcond] at hdest4; exact hdest4⟩
  case pos =>
  have hex : ∃ k₀ : Nat, st.1.dist u = ((k₀ : ℚ) : WithTop ℚ) ∧
      k₀ + 1 ≤ finCount st.1 n := by
    rcases hmid.natval u with h | h
    · rw [hmid.udist] at h
      exact absurd h hmid.ufin
    · exact h
  obtain ⟨k₀, hku, hkb⟩ := hex
  have hnec : e.dest ≠ u := by
    intro hh
    rw [hh] at hcond
    exact not_lt_add_nonneg (by norm_num : (0 : ℚ) ≤ 1) hcond
  have hdestlt : e.dest < n := hWF u hmid.ult e he
  have hginvX : GInv A n (fun _ => 1) s
      ⟨Function.update st.1.dist e.dest (st.1.dist u + ((1 : ℚ) : WithTop ℚ)),
       Function.update st.1.path e.dest (some u)⟩ := by
    rw [← relaxW_of_lt _ _ _ _ hcond]
    exact GInv_relaxW hcyc hmid.ult he hmid.ginv
  have hnewval : st.1.dist u + ((1 : ℚ) : WithTop ℚ) = (((k₀ + 1 : Nat) : ℚ) : WithTop ℚ) := by
    rw [hku, ← WithTop.coe_add]
    push_cast
    rfl
  have hnewfin : st.1.dist u + ((1 : ℚ) : WithTop ℚ) ≠ ⊤ := by
    rw [hnewval]
    exact WithTop.coe_ne_top
  -- the new finite-vertex count
  have hfin_new : k₀ + 2 ≤ finCount
      ⟨Function.update st.1.dist e.dest (st.1.dist u + ((1 : ℚ) : WithTop ℚ)),
       Function.update st.1.path e.dest (some u)⟩ n ∧
      finCount st.1 n ≤ finCount
      ⟨Function.update st.1.dist e.dest (st.1.dist u + ((1 : ℚ) : WithTop ℚ)),
       Function.update st.1.path e.dest (some u)⟩ n := by
    by_cases htop : st.1.dist e.dest = ⊤
    · rw [finCount_update_of_top st.1 n e.dest _ _ hdestlt htop hnewfin]
      omega
    · rw [finCount_update_of_ne_top st.1 n e.dest _ _ htop hnewfin]
      rcases hmid.natval e.dest with h | ⟨j, hj, hjb⟩
      · exact absurd h htop
      · rw [hku, hj] at hcond
        have : (k₀ : ℚ) + 1 < (j : ℚ) := by exact_mod_cast hcond
        have hkj : k₀ + 1 < j := by exact_mod_cast this
        omega
  rw [relaxW_of_lt _ _ _ _ hcond, if_pos hcond]
  refine ⟨⟨hginvX, ?_, hmid.ult, ?_, hmid.ufin, ?_, ?_⟩, ?_, ?_, ?_⟩
  · -- qmem
    intro x hx
    rw [List.mem_append, List.mem_singleton] at hx
    rcases hx with hx | rfl
    · obtain ⟨hx1, hx2⟩ := hmid.qmem x hx
      refine ⟨hx1, ?_⟩
      by_cases hxd : x = e.dest
      · subst hxd
        rw [show (⟨Function.update st.1.dist e.dest
            (st.1.dist u + ((1 : ℚ) : WithTop ℚ)),
            Function.update st.1.path e.dest (some u)⟩ : DP).dist e.dest = _ from
          Function.update_same _ _ _]
        exact hnewfin
      · rw [show (⟨Function.update st.1.dist e.dest
            (st.1.dist u + ((1 : ℚ) : WithTop ℚ)),
            Function.update st.1.path e.dest (some u)⟩ : DP).dist x = st.1.dist x from
          Function.update_noteq hxd _ _]
        exact hx2
    · refine ⟨hdestlt, ?_⟩
      rw [show (⟨Function.update st.1.dist e.dest
          (st.1.dist u + ((1 : ℚ) : WithTop ℚ)),
          Function.update st.1.path e.dest (some u)⟩ : DP).dist e.dest = _ from
        Function.update_same _ _ _]
      exact hnewfin
  · -- udist
    rw [show (⟨Function.update st.1.dist e.dest
        (st.1.dist u + ((1 : ℚ) : WithTop ℚ)),
        Function.update st.1.path e.dest (some u)⟩ : DP).dist u = st.1.dist u from
      Function.update_noteq (Ne.symm hnec) _ _]
    exact hmid.udist
  · -- edge_inv
    intro w hw hwu
    by_cases hwd : w = e.dest
    · subst hwd
      left
      rw [List.mem_append, List.mem_singleton]
      right
      rfl
    · rcases hmid.edge_inv w hw hwu with hq | hstab
      · left
        rw [List.mem_append]
        exact Or.inl hq
      · right
        intro e' he'
        rw [show (⟨Function.update st.1.dist e.dest
            (st.1.dist u + ((1 : ℚ) : WithTop ℚ)),
            Function.update st.1.path e.dest (some u)⟩ : DP).dist w = st.1.dist w from
          Function.update_noteq hwd _ _]
        calc (⟨Function.update st.1.dist e.dest
              (st.1.dist u + ((1 : ℚ) : WithTop ℚ)),
              Function.update st.1.path e.dest (some u)⟩ : DP).dist e'.dest
            ≤ st.1.dist e'.dest := by
              rw [← relaxW_of_lt _ _ _ _ hcond]
              exact hmono e'.dest
          _ ≤ st.1.dist w + ((1 : ℚ) : WithTop ℚ) := hstab e' he'
  · -- natval
    intro v
    by_cases hvd : v = e.dest
    · subst hvd
      right
      refine ⟨k₀ + 1, ?_, ?_⟩
      · rw [show (⟨Function.update st.1.dist e.dest
            (st.1.dist u + ((1 : ℚ) : WithTop ℚ)),
            Function.update st.1.path e.dest (some u)⟩ : DP).dist e.dest = _ from
          Function.update_same _ _ _]
        exact hnewval
      · exact hfin_new.1
    · rw [show (⟨Function.update st.1.dist e.dest
          (st.1.dist u + ((1 : ℚ) : WithTop ℚ)),
          Function.update st.1.path e.dest (some u)⟩ : DP).dist v = st.1.dist v from
        Function.update_noteq hvd _ _]
      rcases hmid.natval v with h | ⟨k, hk, hkbd⟩
      · exact Or.inl h
      · exact Or.inr ⟨k, hk, le_trans hkbd hfin_new.2⟩
  · -- measure
    unfold muBFS
    simp only [List.length_append, List.length_cons, List.length_nil]
    have hsum := sum_rank_update st.1 n e.dest
      (st.1.dist u + ((1 : ℚ) : WithTop ℚ)) hdestlt
    have hranknew : rankD n (st.1.dist u + ((1 : ℚ) : WithTop ℚ)) = k₀ + 1 := by
      rw [hnewval, rankD_coe_nat]
      have : k₀ + 2 ≤ n := le_trans hfin_new.1 (finCount_le _ n)
      omega
    have hrankold : k₀ + 2 ≤ rankD n (st.1.dist e.dest) := by
      by_cases htop : st.1.dist e.dest = ⊤
      · rw [htop, rankD_top]
        exact le_trans hfin_new.1 (finCount_le _ n)
      · rcases hmid.natval e.dest with h | ⟨j, hj, hjb⟩
        · exact absurd h htop
        · rw [hj, rankD_coe_nat]
          rw [hku, hj] at hcond
          have : (k₀ : ℚ) + 1 < (j : ℚ) := by exact_mod_cast hcond
          have hkj : k₀ + 1 < j := by exact_mod_cast this
          have hjn : j + 1 ≤ n := le_trans hjb (finCount_le _ n)
          omega
    omega
  · -- monotone
    intro x
    have hmx := hmono x
    rw [relaxW_of_lt _ _ _ _ hcond] at hmx
    exact hmx
  · -- processed edge bound
    rw [relaxW_of_lt _ _ _ _ hcond] at hdest4
    exact hdest4

theorem bfsFold_dist_le (A : Nat → List Edge) (u : Nat) (es : List Edge) :
    ∀ st : DP × List Nat, ∀ x, ((es.foldl (fun st e =>
      (relaxW u e.dest 1 st.1,
       if st.1.dist u + ((1 : ℚ) : WithTop ℚ) < st.1.dist e.dest
       then st.2 ++ [e.dest] else st.2)) st).1.dist x) ≤ st.1.dist x := by
  induction es with
  | nil => intro st x; exact le_rfl
  | cons e rest ih =>
    intro st x
    exact le_trans (ih _ x) (relaxW_dist_le u e.dest 1 st.1 x)

theorem bfsVisit_fold {A : Nat → List Edge} {n s u : Nat} {d₀ : WithTop ℚ}
    (hWF : WFadj A n) (hcyc : CycleNonnegF A (fun _ => 1) s) :
    ∀ es : List Edge, (∀ e ∈ es, e ∈ A u) → ∀ st, BMid A n s u d₀ st →
      BMid A n s u d₀ (es.foldl (fun st e =>
        (relaxW u e.dest 1 st.1,
         if st.1.dist u + ((1 : ℚ) : WithTop ℚ) < st.1.dist e.dest
         then st.2 ++ [e.dest] else st.2)) st) ∧
      muBFS (es.foldl (fun st e =>
        (relaxW u e.dest 1 st.1,
         if st.1.dist u + ((1 : ℚ) : WithTop ℚ) < st.1.dist e.dest
         then st.2 ++ [e.dest] else st.2)) st) n ≤ muBFS st n ∧
      (∀ e ∈ es, ((es.foldl (fun st e =>
        (relaxW u e.dest 1 st.1,
         if st.1.dist u + ((1 : ℚ) : WithTop ℚ) < st.1.dist e.dest
         then st.2 ++ [e.dest] else st.2)) st).1.dist e.dest) ≤
          d₀ + ((1 : ℚ) : WithTop ℚ)) := by
  intro es
  induction es with
  | nil =>
    intro _ st hmid
    exact ⟨hmid, le_rfl, fun e he => absurd he (by simp)⟩
  | cons e rest ih =>
    intro hes st hmid
    have he : e ∈ A u := hes e (List.mem_cons_self e rest)
    obtain ⟨hmid1, hmu1, hmono1, hd1⟩ := BMid_step hWF hcyc hmid he
    obtain ⟨hmidF, hmuF, hstabF⟩ :=
      ih (fun e' he' => hes e' (List.mem_cons_of_mem _ he')) _ hmid1
    refine ⟨hmidF, le_trans hmuF hmu1, ?_⟩
    · intro e' he'
      rcases List.mem_cons.mp he' with rfl | he2
      · exact le_trans (bfsFold_dist_le A u rest _ e'.dest) hd1
      · exact hstabF e' he2

theorem BInv_iteration {A : Nat → List Edge} {n s : Nat}
    (hWF : WFadj A n) (hcyc : CycleNonnegF A (fun _ => 1) s)
    (dp : DP) (u : Nat) (r : List Nat)
    (hinv : BInv A n s dp (u :: r)) :
    BInv A n s (bfsVisit A u (dp, r)).1 (bfsVisit A u (dp, r)).2 ∧
    muBFS (bfsVisit A u (dp, r)) n + 1 ≤ muBFS (dp, u :: r) n := by
  have hm := hinv.qmem u (List.mem_cons_self u r)
  have hmid0 : BMid A n s u (dp.dist u) (dp, r) := by
    refine ⟨hinv.ginv, ?_, hm.1, rfl, hm.2, ?_, hinv.natval⟩
    · intro x hx
      exact hinv.qmem x (List.mem_cons_of_mem _ hx)
    · intro w hw hwu
      rcases hinv.edge_inv w hw with hq | hstab
      · rcases List.mem_cons.mp hq with h | h
        · exact absurd h hwu
        · exact Or.inl h
      · exact Or.inr hstab
  obtain ⟨hmidF, hmuF, hstabF⟩ := bfsVisit_fold hWF hcyc (A u) (fun _ he => he) _ hmid0
  unfold bfsVisit
  constructor
  · refine ⟨hmidF.ginv, hmidF.qmem, ?_, hmidF.natval⟩
    · -- edge_inv
      intro w hw
      by_cases hwu : w = u
      · subst hwu
        right
        intro e he
        have := hstabF e he
        rw [← hmidF.udist] at this
        exact this
      · exact hmidF.edge_inv w hw hwu
  · -- measure
    have hq : muBFS (dp, u :: r) n = muBFS (dp, r) n + 1 := by
      unfold muBFS
      simp only [List.length_cons]
      have e1 : (dp, u :: r).2.length = r.length + 1 := rfl
      have e2 : (dp, r).2.length = r.length := rfl
      omega
    unfold muBFS at hmuF ⊢
    have e3 : (dp, r).2.length + Finset.sum (Finset.range n) (fun v => rankD n ((dp, r).1.dist v)) =
        r.length + Finset.sum (Finset.range n) (fun v => rankD n (dp.dist v)) := rfl
    unfold muBFS at hq
    omega

theorem BInv_init {A : Nat → List Edge} {n s : Nat} (hs : s < n) :
    BInv A n s (initDP s) [s] := by
  refine ⟨GInv_init, ?_, ?_, ?_⟩
  · intro x hx
    rw [List.mem_singleton] at hx
    refine ⟨hx ▸ hs, ?_⟩
    rw [hx]
    simp [initDP]
  · intro w hw
    by_cases hws : w = s
    · exact Or.inl (by rw [hws]; exact List.mem_singleton_self s)
    · right
      intro e he
      rw [show (initDP s).dist w = ⊤ from by simp [initDP, hws], top_add]
      exact le_top
  · intro v
    by_cases hvs : v = s
    · right
      refine ⟨0, ?_, ?_⟩
      · rw [hvs]
        simp [initDP]
      · have hmem : s ∈ (Finset.range n).filter (fun x => (initDP s).dist x ≠ ⊤) := by
          rw [Finset.mem_filter, Finset.mem_range]
          exact ⟨hs, by simp [initDP]⟩
        have hpos := Finset.card_pos.mpr ⟨s, hmem⟩
        unfold finCount
        omega
    · left
      simp [initDP, hvs]

theorem bfsLoop_correct {A : Nat → List Edge} {n s : Nat}
    (hWF : WFadj A n) (hcyc : CycleNonnegF A (fun _ => 1) s) :
    ∀ fuel (st : DP × List Nat), BInv A n s st.1 st.2 → muBFS st n ≤ fuel →
      BInv A n s (bfsLoop A fuel st).1 (bfsLoop A fuel st).2 ∧
        (bfsLoop A fuel st).2 = [] := by
  intro fuel
  induction fuel with
  | zero =>
    intro st hinv hmu
    have h2 : st.2 = [] := by
      unfold muBFS at hmu
      have : st.2.length = 0 := by omega
      exact List.length_eq_zero.mp this
    rw [show bfsLoop A 0 st = st from rfl]
    exact ⟨hinv, h2⟩
  | succ fuel ih =>
    intro st hinv hmu
    obtain ⟨dp, q⟩ := st
    cases hq : q with
    | nil =>
      subst hq
      exact ⟨hinv, rfl⟩
    | cons u r =>
      subst hq
      rw [show bfsLoop A (fuel + 1) (dp, u :: r) =
        bfsLoop A fuel (bfsVisit A u (dp, r)) from rfl]
      obtain ⟨hinv2, hmu2⟩ := BInv_iteration hWF hcyc dp u r hinv
      exact ih _ hinv2 (by omega)

/-- C5: for every well-formed graph and every origin payload present in
it, `unweightedShortestPath` terminates and leaves each vertex's `dist`
equal to the minimum number of edges of any directed walk from the
source (equivalently, of any path), and `INF` exactly when the vertex is
unreachable — the stored edge weights are never read by the algorithm
(every relaxation uses cost `1`), so the outcome depends only on the
adjacency structure and ignores the weights entirely (the cost
interpretation in the statement is the constant-one function, whose walk
cost is the edge count). -/
theorem unweighted_correct (g : Graph T) (o : T) (s : Nat)
    (hWF : WFadj g.adjf g.vertexSet.length)
    (hfind : g.findVertexIdx o = some s) :
    ∃ st, g.unweightedShortestPath o = some st ∧
      ∀ v vert, st.vertexSet[v]? = some vert →
        ShortestOutcome g.adjf g.vertexSet.length (fun _ => 1) s v vert.dist ∧
        (∀ steps, IsWalk g.adjf s steps v →
          vert.dist ≤ ((steps.length : ℚ) : WithTop ℚ)) := by
  have hs : s < g.vertexSet.length := (findVertexIdx_some_spec g o s hfind).1
  have hcyc : CycleNonnegF g.adjf (fun _ => 1) s :=
    cycleNonnegF_of_nonneg hWF hs (fun u _ e _ => by norm_num)
  refine ⟨g.writeBack (bfsLoop g.adjf (g.vertexSet.length * g.vertexSet.length + 1)
      (initDP s, [s])).1, ?_, ?_⟩
  · unfold Graph.unweightedShortestPath
    rw [hfind]
  intro v vert hv
  rw [writeBack_get] at hv
  obtain ⟨vg, hvg, rfl⟩ := Option.map_eq_some'.mp hv
  have hmu0 : muBFS (initDP s, [s]) g.vertexSet.length ≤
      g.vertexSet.length * g.vertexSet.length + 1 := by
    unfold muBFS
    have h1 := Finset.sum_le_card_nsmul (Finset.range g.vertexSet.length)
      (fun v => rankD g.vertexSet.length ((initDP s, ([s] : List Nat)).1.dist v))
      g.vertexSet.length (fun x _ => rankD_le _ _)
    rw [Finset.card_range, smul_eq_mul] at h1
    have e1 : ((initDP s, ([s] : List Nat)).2).length = 1 := rfl
    omega
  obtain ⟨hinvF, hqF⟩ := bfsLoop_correct hWF hcyc
    (g.vertexSet.length * g.vertexSet.length + 1) (initDP s, [s]) (BInv_init hs) hmu0
  have hstable : Stable g.adjf g.vertexSet.length (fun _ => 1)
      (bfsLoop g.adjf (g.vertexSet.length * g.vertexSet.length + 1) (initDP s, [s])).1 := by
    intro u hu e he
    rcases hinvF.edge_inv u hu with hq | hstab
    · rw [hqF] at hq
      simp at hq
    · exact hstab e he
  have hbd : ∀ x steps, IsWalk g.adjf s steps x →
      (bfsLoop g.adjf (g.vertexSet.length * g.vertexSet.length + 1)
        (initDP s, [s])).1.dist x ≤ ((costF (fun _ => 1) steps : ℚ) : WithTop ℚ) := by
    intro x steps hwx
    exact stable_walk_bound hWF hs hstable hinvF.ginv.src steps x hwx
  refine ⟨shortestOutcome_of_bound hWF hs hcyc hinvF.ginv hbd v, ?_⟩
  intro steps hsteps
  have := hbd v steps hsteps
  rw [costF_one] at this
  exact this

theorem unweighted_correct_witness :
    ∃ st, exD.unweightedShortestPath 0 = some st ∧
      ∀ v vert, st.vertexSet[v]? = some vert →
        ShortestOutcome exD.adjf exD.vertexSet.length (fun _ => 1) 0 v vert.dist ∧
        (∀ steps, IsWalk exD.adjf 0 steps v →
          vert.dist ≤ ((steps.length : ℚ) : WithTop ℚ)) :=
  unweighted_correct exD 0 0 (by decide) (by decide)

/-! ## Path reconstruction (`getPathTo` / `getPath`) -/

/-- The traversal `for ( ; v != nullptr; v = v->path) res.push_back(v->info)`
of `Graph<T>::getPathTo` / `Graph<T>::getPath`, collecting payloads from
the destination back to the root of the predecessor chain. The fuel
models termination of the C++ loop: `none` means the loop has not
reached a root within the fuel (e.g. on a cyclic predecessor chain the
C++ loop never terminates). -/
def chainCollect (g : Graph T) : Nat → Nat → Option (List T)
  | 0, _ => none
  | fuel + 1, v =>
    match g.vertexSet[v]? with
    | none => none
    | some vert =>
      match vert.path with
      | none => some [vert.info]
      | some p => (chainCollect g fuel p).map (fun l => vert.info :: l)

/-- `Graph<T>::getPathTo`: empty result when the destination payload is
absent or its `dist` is still `INF`; otherwise follow the `path` links
from the destination, collect the payloads, and reverse into
source-to-destination order (the `origin` parameter is not read, as in
the source). -/
def Graph.getPathTo (g : Graph T) (origin dest : T) : Option (List T) :=
  match g.findVertexIdx dest with
  | none => some []
  | some i =>
    match g.vertexSet[i]? with
    | none => none
    | some vert =>
      if vert.dist = ⊤ then some []
      else (chainCollect g (g.vertexSet.length + 1) i).map List.reverse

/-- `Graph<T>::getPath`: textually identical to `getPathTo` in the
source. -/
def Graph.getPath (g : Graph T) (origin dest : T) : Option (List T) :=
  match g.findVertexIdx dest with
  | none => some []
  | some i =>
    match g.vertexSet[i]? with
    | none => none
    | some vert =>
      if vert.dist = ⊤ then some []
      else (chainCollect g (g.vertexSet.length + 1) i).map List.reverse

theorem getPathTo_none (g : Graph T) (o d : T) (hfd : g.findVertexIdx d = none) :
    g.getPathTo o d = some [] := by
  unfold Graph.getPathTo
  rw [hfd]

theorem getPath_none (g : Graph T) (o d : T) (hfd : g.findVertexIdx d = none) :
    g.getPath o d = some [] := by
  unfold Graph.getPath
  rw [hfd]

theorem getPathTo_some (g : Graph T) (o d : T) {i : Nat} {vert : Vertex T}
    (hfd : g.findVertexIdx d = some i) (hvert : g.vertexSet[i]? = some vert) :
    g.getPathTo o d = if vert.dist = ⊤ then some []
      else (chainCollect g (g.vertexSet.length + 1) i).map List.reverse := by
  unfold Graph.getPathTo
  rw [hfd]
  show (match g.vertexSet[i]? with
    | none => none
    | some vert =>
      if vert.dist = ⊤ then some []
      else (chainCollect g (g.vertexSet.length + 1) i).map List.reverse) = _
  rw [hvert]

theorem getPath_some (g : Graph T) (o d : T) {i : Nat} {vert : Vertex T}
    (hfd : g.findVertexIdx d = some i) (hvert : g.vertexSet[i]? = some vert) :
    g.getPath o d = if vert.dist = ⊤ then some []
      else (chainCollect g (g.vertexSet.length + 1) i).map List.reverse := by
  unfold Graph.getPath
  rw [hfd]
  show (match g.vertexSet[i]? with
    | none => none
    | some vert =>
      if vert.dist = ⊤ then some []
      else (chainCollect g (g.vertexSet.length + 1) i).map List.reverse) = _
  rw [hvert]

theorem chain_congr {p q : Nat → Option Nat} :
    ∀ {v : Nat} {c : List Nat}, Chain p v c → (∀ x ∈ c, p x = q x) → Chain q v c := by
  intro v c h
  induction h with
  | last x hnone =>
    intro hpq
    exact Chain.last x ((hpq x (List.mem_singleton_self x)) ▸ hnone)
  | step x u l hsome hc ih =>
    intro hpq
    exact Chain.step x u l ((hpq x (List.mem_cons_self x l)) ▸ hsome)
      (ih (fun y hy => hpq y (List.mem_cons_of_mem x hy)))

theorem chain_mem_lt {A : Nat → List Edge} {n : Nat} {f : ℚ → ℚ} {s : Nat} {dp : DP}
    (hg : GInv A n f s dp) :
    ∀ {v : Nat} {c : List Nat}, Chain dp.path v c → v < n → ∀ x ∈ c, x < n := by
  intro v c h
  induction h with
  | last x hnone =>
    intro hv y hy
    rw [List.mem_singleton] at hy
    exact hy ▸ hv
  | step x u l hsome hc ih =>
    intro hv y hy
    rcases List.mem_cons.mp hy with rfl | hy2
    · exact hv
    · exact ih (hg.pred x u hsome).1 y hy2

/-- The terminal vertex of a finite vertex's predecessor chain is the
source. -/
theorem chain_getLast_src {A : Nat → List Edge} {n : Nat} {f : ℚ → ℚ} {s : Nat}
    {dp : DP} (hg : GInv A n f s dp) :
    ∀ {v : Nat} {c : List Nat}, Chain dp.path v c → dp.dist v ≠ ⊤ →
      c.getLast? = some s := by
  intro v c h
  induction h with
  | last x hnone =>
    intro hx
    rw [hg.root x hx hnone]
    rfl
  | step x u l hsome hc ih =>
    intro hx
    have hu : dp.dist u ≠ ⊤ := (hg.pred x u hsome).2.2.1
    cases hl : l with
    | nil => exact absurd hl (chain_ne_nil hc)
    | cons a l2 =>
      rw [hl] at ih hc
      rw [List.getLast?_cons_cons]
      exact ih hu

theorem nodup_lt_length_le {c : List Nat} {n : Nat} (hnd : c.Nodup)
    (hlt : ∀ x ∈ c, x < n) : c.length ≤ n := by
  have h1 : c.toFinset ⊆ Finset.range n := by
    intro x hx
    exact Finset.mem_range.mpr (hlt x (List.mem_toFinset.mp hx))
  have h2 := Finset.card_le_card h1
  rw [List.toFinset_card_of_nodup hnd, Finset.card_range] at h2
  exact h2

theorem forall2_head {α β : Type} {r : α → β → Prop} :
    ∀ {c : List α} {l : List β}, List.Forall₂ r c l →
      ∀ {a : α}, c.head? = some a → ∃ b, l.head? = some b ∧ r a b := by
  intro c l h
  cases h with
  | nil =>
    intro a ha
    exact absurd ha (by simp)
  | @cons a₀ b₀ c2 l2 hr hrest =>
    intro a ha
    have h2 : a₀ = a := by injection ha
    exact ⟨b₀, rfl, h2 ▸ hr⟩

theorem forall2_getLast {α β : Type} {r : α → β → Prop} :
    ∀ {c : List α} {l : List β}, List.Forall₂ r c l →
      ∀ {a : α}, c.getLast? = some a → ∃ b, l.getLast? = some b ∧ r a b := by
  intro c l h
  induction h with
  | nil =>
    intro a ha
    exact absurd ha (by simp)
  | @cons a₀ b₀ c2 l2 hr hrest ih =>
    intro a ha
    cases hrest with
    | nil =>
      have h2 : a₀ = a := by
        rw [show ([a₀] : List α).getLast? = some a₀ from rfl] at ha
        injection ha
      exact ⟨b₀, rfl, h2 ▸ hr⟩
    | @cons a₁ b₁ c₃ l₃ hr2 hrest2 =>
      rw [List.getLast?_cons_cons] at ha
      obtain ⟨b, hb, hab⟩ := ih ha
      refine ⟨b, ?_, hab⟩
      rw [List.getLast?_cons_cons]
      exact hb

/-- The traversal of a terminating predecessor chain succeeds with any
fuel at least the chain length, returning the pointwise payloads. -/
theorem chainCollect_of_chain (g : Graph T) :
    ∀ {c : List Nat} {v : Nat},
      Chain (fun x => (g.vertexSet[x]?).bind Vertex.path) v c →
      (∀ x ∈ c, x < g.vertexSet.length) →
      ∀ fuel, c.length ≤ fuel →
        ∃ l, chainCollect g fuel v = some l ∧
          List.Forall₂ (fun x t => ((g.vertexSet[x]?).map Vertex.info) = some t) c l := by
  intro c v h
  induction h with
  | last x hnone =>
    intro hlt fuel hfuel
    cases fuel with
    | zero => simp at hfuel
    | succ f =>
      have hx : x < g.vertexSet.length := hlt x (List.mem_singleton_self x)
      cases hvx : g.vertexSet[x]? with
      | none =>
        exfalso
        rw [List.getElem?_eq_none_iff] at hvx
        omega
      | some vert =>
        have hpath : vert.path = none := by
          have h2 : (g.vertexSet[x]?).bind Vertex.path = none := hnone
          rw [hvx] at h2
          exact h2
        refine ⟨[vert.info], ?_, ?_⟩
        · show chainCollect g (f + 1) x = some [vert.info]
          unfold chainCollect
          rw [hvx]
          show (match vert.path with
            | none => some [vert.info]
            | some p => (chainCollect g f p).map (fun l => vert.info :: l)) = _
          rw [hpath]
        · exact List.Forall₂.cons (by rw [hvx]; rfl) List.Forall₂.nil
  | step x u l hsome hc ih =>
    intro hlt fuel hfuel
    cases fuel with
    | zero => simp at hfuel
    | succ f =>
      have hx : x < g.vertexSet.length := hlt x (List.mem_cons_self x l)
      have hlen : l.length ≤ f := by
        simp only [List.length_cons] at hfuel
        omega
      obtain ⟨l2, hl2, hf2⟩ := ih (fun y hy => hlt y (List.mem_cons_of_mem x hy)) f hlen
      cases hvx : g.vertexSet[x]? with
      | none =>
        exfalso
        rw [List.getElem?_eq_none_iff] at hvx
        omega
      | some vert =>
        have hpath : vert.path = some u := by
          have h2 : (g.vertexSet[x]?).bind Vertex.path = some u := hsome
          rw [hvx] at h2
          exact h2
        refine ⟨vert.info :: l2, ?_, ?_⟩
        · show chainCollect g (f + 1) x = some (vert.info :: l2)
          unfold chainCollect
          rw [hvx]
          show (match vert.path with
            | none => some [vert.info]
            | some p => (chainCollect g f p).map (fun l => vert.info :: l)) = _
          rw [hpath]
          show (chainCollect g f u).map (fun l => vert.info :: l) = _
          rw [hl2]
          rfl
        · exact List.Forall₂.cons (by rw [hvx]; rfl) hf2

/-- C6: after any of the three single-source algorithms has been run
from an origin payload found at index `s` and has produced the final
graph `st`, the reconstructions `getPathTo` and `getPath` agree and
terminate; they return the empty sequence exactly when the destination
payload is unknown or its `dist` is still `INF` (unreached); otherwise
the returned sequence starts with the source's payload, ends with the
destination's payload (source-to-destination order), and its length is
the length of the destination's predecessor chain — the number of
predecessor links plus one. -/
theorem getPathTo_spec (g : Graph T) (o : T) (s : Nat) (st : Graph T)
    (hWF : WFadj g.adjf g.vertexSet.length)
    (hfind : g.findVertexIdx o = some s)
    (hrun : g.unweightedShortestPath o = some st ∨
      ((∀ u, u < g.vertexSet.length → ∀ e ∈ g.adjf u, 0 ≤ e.weight) ∧
        g.dijkstraShortestPath o = some st) ∨
      (CycleNonnegF g.adjf id s ∧ g.bellmanFordShortestPath o = some st)) :
    ∀ d : T, ∃ l, st.getPathTo o d = some l ∧ st.getPath o d = some l ∧
      (l = [] ↔ (st.findVertexIdx d = none ∨
        ∃ i vert, st.findVertexIdx d = some i ∧ st.vertexSet[i]? = some vert ∧
          vert.dist = ⊤)) ∧
      (∀ i vert, st.findVertexIdx d = some i → st.vertexSet[i]? = some vert →
        vert.dist ≠ ⊤ →
          (∃ svert, st.vertexSet[s]? = some svert ∧ l.head? = some svert.info) ∧
          l.getLast? = some vert.info ∧
          (∃ c, Chain (fun x => (st.vertexSet[x]?).bind Vertex.path) i c ∧
            l.length = c.length)) := by
  have hs : s < g.vertexSet.length := (findVertexIdx_some_spec g o s hfind).1
  have hkey : ∃ (f : ℚ → ℚ) (dpF : DP), st = g.writeBack dpF ∧
      GInv g.adjf g.vertexSet.length f s dpF := by
    rcases hrun with hbfs | hd | hbf
    · have heq : g.unweightedShortestPath o = some (g.writeBack (bfsLoop g.adjf
          (g.vertexSet.length * g.vertexSet.length + 1) (initDP s, [s])).1) := by
        unfold Graph.unweightedShortestPath
        rw [hfind]
      rw [heq] at hbfs
      refine ⟨fun _ => 1, (bfsLoop g.adjf
          (g.vertexSet.length * g.vertexSet.length + 1) (initDP s, [s])).1,
        (Option.some_injective _ hbfs).symm, ?_⟩
      have hcyc : CycleNonnegF g.adjf (fun _ => 1) s :=
        cycleNonnegF_of_nonneg hWF hs (fun u _ e _ => by norm_num)
      have hmu0 : muBFS (initDP s, [s]) g.vertexSet.length ≤
          g.vertexSet.length * g.vertexSet.length + 1 := by
        unfold muBFS
        have h1 := Finset.sum_le_card_nsmul (Finset.range g.vertexSet.length)
          (fun v => rankD g.vertexSet.length ((initDP s, ([s] : List Nat)).1.dist v))
          g.vertexSet.length (fun x _ => rankD_le _ _)
        rw [Finset.card_range, smul_eq_mul] at h1
        have e1 : ((initDP s, ([s] : List Nat)).2).length = 1 := rfl
        omega
      exact (bfsLoop_correct hWF hcyc _ (initDP s, [s]) (BInv_init hs) hmu0).1.ginv
    · obtain ⟨hNN, hdijk⟩ := hd
      have heq : g.dijkstraShortestPath o = some (g.writeBack (dijkLoop g.adjf
          (g.vertexSet.length + 1) (initDP s, [s])).1) := by
        unfold Graph.dijkstraShortestPath
        rw [hfind]
      rw [heq] at hdijk
      refine ⟨id, (dijkLoop g.adjf (g.vertexSet.length + 1) (initDP s, [s])).1,
        (Option.some_injective _ hdijk).symm, ?_⟩
      have hcyc : CycleNonnegF g.adjf id s := cycleNonnegF_of_nonneg hWF hs hNN
      have hmu0 : muDijk (initDP s, [s]) g.vertexSet.length ≤
          g.vertexSet.length + 1 := by
        unfold muDijk topCount
        have := Finset.card_filter_le (Finset.range g.vertexSet.length)
          (fun v => (initDP s).dist v = ⊤)
        simp only [List.length_singleton]
        have h2 := Finset.card_range g.vertexSet.length
        omega
      exact (dijkLoop_correct hWF hcyc hNN _ (initDP s, [s]) (DInv_init hs) hmu0).1.ginv
    · obtain ⟨hcyc, hbf2⟩ := hbf
      have heq : g.bellmanFordShortestPath o = some (g.writeBack
          (bellmanPass g.adjf g.vertexSet.length
            ((bellmanPass g.adjf g.vertexSet.length)^[g.vertexSet.length - 1]
              (initDP s)))) := by
        unfold Graph.bellmanFordShortestPath
        rw [hfind]
      rw [heq] at hbf2
      exact ⟨id, _, (Option.some_injective _ hbf2).symm,
        GInv_bellmanPass hcyc (GInv_iterate_bellmanPass hcyc GInv_init _)⟩
  obtain ⟨f, dpF, rfl, hg⟩ := hkey
  have hpf : ∀ x, x < g.vertexSet.length →
      (((g.writeBack dpF).vertexSet[x]?).bind Vertex.path) = dpF.path x := by
    intro x hx
    rw [writeBack_get]
    cases hgx : g.vertexSet[x]? with
    | none =>
      exfalso
      rw [List.getElem?_eq_none_iff] at hgx
      omega
    | some vert => rfl
  intro d
  cases hfd : (g.writeBack dpF).findVertexIdx d with
  | none =>
    refine ⟨[], getPathTo_none _ o d hfd, getPath_none _ o d hfd,
      iff_of_true rfl (Or.inl rfl), ?_⟩
    intro i vert h1 h2 h3
    exact absurd h1 (by simp)
  | some i =>
    obtain ⟨hilt, vert, hvert, hinfod⟩ := findVertexIdx_some_spec _ d i hfd
    have hiln : i < g.vertexSet.length := by
      rw [writeBack_length] at hilt
      exact hilt
    have hvd : vert.dist = dpF.dist i := by
      rw [writeBack_get] at hvert
      obtain ⟨vg, hvg, hveq⟩ := Option.map_eq_some'.mp hvert
      rw [← hveq]
    by_cases htop : vert.dist = ⊤
    · refine ⟨[], ?_, ?_, iff_of_true rfl (Or.inr ⟨i, vert, rfl, hvert, htop⟩), ?_⟩
      · rw [getPathTo_some _ o d hfd hvert, if_pos htop]
      · rw [getPath_some _ o d hfd hvert, if_pos htop]
      · intro i2 vert2 h1 h2 h3
        have hii : i = i2 := by injection h1
        subst hii
        rw [hvert] at h2
        have hv2 : vert = vert2 := by injection h2
        exact absurd (show vert2.dist = ⊤ by rw [← hv2]; exact htop) h3
    · have hdi : dpF.dist i ≠ ⊤ := by
        rw [← hvd]
        exact htop
      obtain ⟨c, hchain⟩ := hg.chain i hdi
      have hclt : ∀ x ∈ c, x < g.vertexSet.length := chain_mem_lt hg hchain hiln
      have hchain2 : Chain (fun x =>
          (((g.writeBack dpF).vertexSet[x]?).bind Vertex.path)) i c :=
        chain_congr hchain (fun x hx => (hpf x (hclt x hx)).symm)
      have hclt2 : ∀ x ∈ c, x < (g.writeBack dpF).vertexSet.length := by
        intro x hx
        rw [writeBack_length]
        exact hclt x hx
      have hclen : c.length ≤ g.vertexSet.length :=
        nodup_lt_length_le (chain_nodup hchain) hclt
      have hfuel : c.length ≤ (g.writeBack dpF).vertexSet.length + 1 := by
        rw [writeBack_length]
        omega
      obtain ⟨l0, hl0, hf0⟩ := chainCollect_of_chain (g.writeBack dpF) hchain2 hclt2 _ hfuel
      refine ⟨l0.reverse, ?_, ?_, ?_, ?_⟩
      · rw [getPathTo_some _ o d hfd hvert, if_neg htop, hl0]
        rfl
      · rw [getPath_some _ o d hfd hvert, if_neg htop, hl0]
        rfl
      · constructor
        · intro hnil
          rw [List.reverse_eq_nil_iff] at hnil
          subst hnil
          cases hf0 with
          | nil => exact absurd rfl (chain_ne_nil hchain)
        · intro hr
          exfalso
          rcases hr with h1 | ⟨i2, vert2, h1, h2, h3⟩
          · exact absurd h1 (by simp)
          · have hii : i = i2 := by injection h1
            subst hii
            rw [hvert] at h2
            have hv2 : vert = vert2 := by injection h2
            exact htop (by rw [hv2]; exact h3)
      · intro i2 vert2 h1 h2 h3
        have hii : i = i2 := by injection h1
        subst hii
        rw [hvert] at h2
        have hv2 : vert = vert2 := by injection h2
        subst hv2
        refine ⟨?_, ?_, c, hchain2, ?_⟩
        · have hcl : c.getLast? = some s := chain_getLast_src hg hchain hdi
          obtain ⟨b, hb, hrb⟩ := forall2_getLast hf0 hcl
          obtain ⟨svert, hsv, hsb⟩ := Option.map_eq_some'.mp hrb
          refine ⟨svert, hsv, ?_⟩
          rw [List.head?_reverse, hb, hsb]
        · have hch : c.head? = some i := chain_head hchain
          obtain ⟨b, hb, hrb⟩ := forall2_head hf0 hch
          rw [List.getLast?_reverse, hb]
          rw [hvert] at hrb
          have hbi : vert.info = b := by
            simp only [Option.map_some'] at hrb
            injection hrb
          rw [← hbi]
        · rw [List.length_reverse]
          exact (List.Forall₂.length_eq hf0).symm

/-- The final graph produced by `unweightedShortestPath` on `exD` from
source `0`: distances `0, 1, 1` and predecessor links `1 ← 0`,
`2 ← 0`. -/
def exC6st : Graph ℕ :=
  ⟨[⟨0, [⟨1, 1, true⟩, ⟨2, 3, true⟩], 0, none⟩,
    ⟨1, [⟨2, 1, true⟩], 1, some 0⟩,
    ⟨2, [], 1, some 0⟩]⟩

theorem getPathTo_spec_witness :
    ∃ l, exC6st.getPathTo 0 2 = some l ∧ exC6st.getPath 0 2 = some l ∧
      (l = [] ↔ (exC6st.findVertexIdx 2 = none ∨
        ∃ i vert, exC6st.findVertexIdx 2 = some i ∧ exC6st.vertexSet[i]? = some vert ∧
          vert.dist = ⊤)) ∧
      (∀ i vert, exC6st.findVertexIdx 2 = some i → exC6st.vertexSet[i]? = some vert →
        vert.dist ≠ ⊤ →
          (∃ svert, exC6st.vertexSet[0]? = some svert ∧ l.head? = some svert.info) ∧
          l.getLast? = some vert.info ∧
          (∃ c, Chain (fun x => (exC6st.vertexSet[x]?).bind Vertex.path) i c ∧
            l.length = c.length)) :=
  getPathTo_spec exD 0 0 exC6st (by decide) (by decide) (Or.inl (by decide)) 2

/-! ## The origin precondition of the single-source algorithms -/

/-- C10: each of the three single-source algorithms dereferences the
result of the origin lookup (`findVertex(orig)`) without a null check;
in the embedding the run is `none` — the undefined null dereference —
exactly when the origin payload names no vertex, so under the
precondition that the origin is present the error branch is unreachable
and each run returns a result. -/
theorem singleSource_origin_precondition (g : Graph T) (o : T) :
    (g.unweightedShortestPath o = none ↔ g.findVertexIdx o = none) ∧
    (g.dijkstraShortestPath o = none ↔ g.findVertexIdx o = none) ∧
    (g.bellmanFordShortestPath o = none ↔ g.findVertexIdx o = none) := by
  cases hf : g.findVertexIdx o with
  | none =>
    have h1 : g.unweightedShortestPath o = none := by
      unfold Graph.unweightedShortestPath
      rw [hf]
    have h2 : g.dijkstraShortestPath o = none := by
      unfold Graph.dijkstraShortestPath
      rw [hf]
    have h3 : g.bellmanFordShortestPath o = none := by
      unfold Graph.bellmanFordShortestPath
      rw [hf]
    exact ⟨iff_of_true h1 rfl, iff_of_true h2 rfl, iff_of_true h3 rfl⟩
  | some s =>
    have h1 : g.unweightedShortestPath o = some (g.writeBack
        (bfsLoop g.adjf (g.vertexSet.length * g.vertexSet.length + 1)
          (initDP s, [s])).1) := by
      unfold Graph.unweightedShortestPath
      rw [hf]
    have h2 : g.dijkstraShortestPath o = some (g.writeBack
        (dijkLoop g.adjf (g.vertexSet.length + 1) (initDP s, [s])).1) := by
      unfold Graph.dijkstraShortestPath
      rw [hf]
    have h3 : g.bellmanFordShortestPath o = some (g.writeBack
        (bellmanPass g.adjf g.vertexSet.length
          ((bellmanPass g.adjf g.vertexSet.length)^[g.vertexSet.length - 1]
            (initDP s)))) := by
      unfold Graph.bellmanFordShortestPath
      rw [hf]
    exact ⟨iff_of_false (by rw [h1]; simp) (by simp),
      iff_of_false (by rw [h2]; simp) (by simp),
      iff_of_false (by rw [h3]; simp) (by simp)⟩

/-! ## Floyd-Warshall -/

/-- All-pairs state of `floydWarshallShortestPath`: `W` is the distance
matrix (`double **W`, with `INF` as `⊤`), `P` the predecessor matrix
(`int **P`, with the `-1` sentinel as `none`). -/
structure FWState where
  W : Nat → Nat → WithTop ℚ
  P : Nat → Nat → Option Nat

/-- Truncation toward zero of the C++ `double`-to-`int` conversion in
`int val = W[i][k] + W[k][j];`. -/
def truncQ (q : ℚ) : ℤ := if 0 ≤ q then ⌊q⌋ else -⌊-q⌋

/-- The innermost body of the `floydWarshallShortestPath` triple loop:
skip when either summand is `INF` (the `continue`), otherwise form
`int val = W[i][k] + W[k][j]` — the sum is truncated to an integer —
and if `val < W[i][j]` store `val` into `W[i][j]` and propagate
`P[i][j] = P[k][j]`. -/
def fwUpdate (st : FWState) (k i j : Nat) : FWState :=
  if st.W i k = ⊤ ∨ st.W k j = ⊤ then st
  else
    let val : ℤ := truncQ ((st.W i k).untop' 0 + (st.W k j).untop' 0)
    if ((val : ℚ) : WithTop ℚ) < st.W i j then
      { W := fun a b => if a = i ∧ b = j then ((val : ℚ) : WithTop ℚ) else st.W a b,
        P := fun a b => if a = i ∧ b = j then st.P k j else st.P a b }
    else st

/-- Seeding the edges of row `i`: for each outgoing edge the column is
`findVertexIdx(e.dest->info)` and `W[i][j] = e.weight`, `P[i][j] = i`;
`none` models the out-of-bounds write `W[i][-1]` when the lookup fails
(unreachable when the edge's destination is a vertex of the graph). -/
def fwSeedEdges (g : Graph T) (i : Nat) : List Edge → FWState → Option FWState
  | [], st => some st
  | e :: rest, st =>
    match g.vertexSet[e.dest]? with
    | none => none
    | some dv =>
      match g.findVertexIdx dv.info with
      | none => none
      | some j =>
        fwSeedEdges g i rest
          { W := fun a b => if a = i ∧ b = j then ((e.weight : ℚ) : WithTop ℚ)
              else st.W a b,
            P := fun a b => if a = i ∧ b = j then some i else st.P a b }

/-- Seeding one row `i`: `W[i][j] = (i == j ? 0 : INF)` and
`P[i][j] = -1` for every column, then the outgoing edges of vertex
`i` overwrite their columns. -/
def fwSeedRow (g : Graph T) (st : FWState) (i : Nat) : Option FWState :=
  fwSeedEdges g i (g.adjf i)
    { W := fun a b => if a = i then (if i = b then 0 else ⊤) else st.W a b,
      P := fun a b => if a = i then none else st.P a b }

/-- The seeding loop of `floydWarshallShortestPath` over all rows
(the freshly allocated matrices carry arbitrary values, here `⊤`/
`none`, and every row is overwritten before being read). -/
def fwInit (g : Graph T) : Option FWState :=
  (List.range g.vertexSet.length).foldlM (fwSeedRow g)
    ⟨fun _ _ => ⊤, fun _ _ => none⟩

/-- The triple loop of `floydWarshallShortestPath` over intermediate
`k`, source `i`, destination `j`. -/
def fwLoop (n : Nat) (st : FWState) : FWState :=
  (List.range n).foldl (fun st k =>
    (List.range n).foldl (fun st i =>
      (List.range n).foldl (fun st j => fwUpdate st k i j) st) st) st

/-- `Graph<T>::floydWarshallShortestPath`: seed the `W`/`P` matrices,
then run the triple relaxation loop. -/
def Graph.floydWarshallShortestPath (g : Graph T) : Option FWState :=
  (fwInit g).map (fwLoop g.vertexSet.length)

/-- A two-vertex graph with the single edge `0 → 1` of strictly
positive finite weight `1/2`. -/
def exFW : Graph ℕ :=
  ⟨[⟨0, [⟨1, 1/2, true⟩], 0, none⟩, ⟨1, [], 0, none⟩]⟩

/-- C3: refuted — `floydWarshallShortestPath` disagrees with
`dijkstraShortestPath` on a graph whose only edge weight is the
strictly positive finite value `1/2`: the loop body declares
`int val = W[i][k] + W[k][j];`, truncating the `double` sum to an
integer before the comparison and the store. With `k = i = 0`, `j = 1`
the sum `0 + 1/2` truncates to `0 < 1/2`, so Floyd-Warshall overwrites
`W[0][1]` with `0`, while Dijkstra from vertex `0` computes the true
distance `1/2` at vertex `1`. -/
theorem floydWarshall_dijkstra_mismatch :
    (∀ u, u < exFW.vertexSet.length → ∀ e ∈ exFW.adjf u, 0 < e.weight) ∧
    (exFW.floydWarshallShortestPath).map (fun fw => fw.W 0 1) =
      some ((0 : ℚ) : WithTop ℚ) ∧
    (exFW.dijkstraShortestPath 0).map
      (fun st => (st.vertexSet[1]?).map Vertex.dist) =
      some (some (((1 : ℚ) / 2 : ℚ) : WithTop ℚ)) ∧
    ((0 : ℚ) : WithTop ℚ) ≠ (((1 : ℚ) / 2 : ℚ) : WithTop ℚ) := by
  refine ⟨by decide, by decide, by decide, by decide⟩

/-! ## The queue-notification discipline of Dijkstra (traced) -/

/-- Modelled from the spec: the `MutablePriorityQueue` source is not
among the provided files, so its operations are represented as abstract
events — `insert` and `decreaseKey` are the two mutating queue
notifications of the spec's queue contract, `extract` is
`extract_min`, and `relaxImprove v wasInf inQueue` records a downward
mutation of `v`'s `dist`, remembering whether the old distance was
`INF` and whether `v` sat in the queue at that moment. -/
inductive QEvent where
  | insert (v : Nat)
  | extract (v : Nat)
  | decreaseKey (v : Nat)
  | relaxImprove (v : Nat) (wasInf : Bool) (inQueue : Bool)
deriving DecidableEq, Repr

/-- `true` exactly on `decreaseKey` events. -/
def QEvent.isDecreaseKey : QEvent → Bool
  | QEvent.decreaseKey _ => true
  | _ => false

/-- One edge of the traced relaxation of `dijkstraShortestPath`: the
same state development as `dijkVisit`, with the emitted events
appended — `relaxImprove` on every improvement, followed by `insert`
exactly when the old distance was `INF` (`if (oldDist == INF)
q.insert(e.dest)`), and by nothing otherwise. -/
def traceStep (u : Nat) (st : DP × List Nat × List QEvent) (e : Edge) :
    DP × List Nat × List QEvent :=
  if st.1.dist u + (e.weight : WithTop ℚ) < st.1.dist e.dest then
    if st.1.dist e.dest = ⊤ then
      (relaxW u e.dest e.weight st.1, st.2.1 ++ [e.dest],
        st.2.2 ++ [QEvent.relaxImprove e.dest true (decide (e.dest ∈ st.2.1)),
          QEvent.insert e.dest])
    else
      (relaxW u e.dest e.weight st.1, st.2.1,
        st.2.2 ++ [QEvent.relaxImprove e.dest false (decide (e.dest ∈ st.2.1))])
  else (relaxW u e.dest e.weight st.1, st.2.1, st.2.2)

/-- The traced `dijkVisit`. -/
def dijkVisitT (A : Nat → List Edge) (u : Nat)
    (st : DP × List Nat × List QEvent) : DP × List Nat × List QEvent :=
  (A u).foldl (traceStep u) st

/-- The traced `dijkLoop`: each `extract_min` emits an `extract`
event. -/
def dijkLoopT (A : Nat → List Edge) :
    Nat → DP × List Nat × List QEvent → DP × List Nat × List QEvent
  | 0, st => st
  | fuel + 1, st =>
    match st.2.1 with
    | [] => st
    | x :: xs =>
      let p := extractMinQ st.1.dist (x :: xs)
      dijkLoopT A fuel (dijkVisitT A p.1
        (st.1, p.2, st.2.2 ++ [QEvent.extract p.1]))

/-- `dijkstraShortestPath` with its queue/relaxation events recorded:
the same computation as `dijkLoop`, returning the event list (`none`
when the origin payload is absent). -/
def Graph.dijkstraTrace (g : Graph T) (orig : T) : Option (List QEvent) :=
  match g.findVertexIdx orig with
  | none => none
  | some s =>
      some (dijkLoopT g.adjf (g.vertexSet.length + 1)
        (initDP s, [s], [QEvent.insert s])).2.2

/-- Scanner for the corrected queue discipline, applied to the trace
after the initial insertion of the source: accepts exactly the traces
with no `decreaseKey` event, with `insert v` immediately after every
`relaxImprove v` whose old distance was `INF`, and with no queue
notification immediately after any other `relaxImprove`. -/
def goodTail : List QEvent → Bool
  | [] => true
  | e :: rest =>
    match e with
    | QEvent.extract _ => goodTail rest
    | QEvent.relaxImprove v true _ =>
      match rest with
      | QEvent.insert w :: rest2 => v == w && goodTail rest2
      | _ => false
    | QEvent.relaxImprove _ false _ =>
      match rest with
      | QEvent.insert _ :: _ => false
      | QEvent.decreaseKey _ :: _ => false
      | _ => goodTail rest
    | _ => false

/-- A full trace is good when it is the initial `insert` of the source
followed by a good tail. -/
def goodTrace : List QEvent → Bool
  | QEvent.insert _ :: rest => goodTail rest
  | _ => false

theorem goodTail_append :
    ∀ (N : Nat) (a b : List QEvent), a.length ≤ N → goodTail a = true →
      goodTail b = true → goodTail (a ++ b) = true := by
  intro N
  induction N with
  | zero =>
    intro a b ha hga hgb
    have h0 : a = [] := List.length_eq_zero.mp (by omega)
    subst h0
    exact hgb
  | succ N ih =>
    intro a b ha hga hgb
    cases a with
    | nil => exact hgb
    | cons e rest =>
      have hrest : rest.length ≤ N := by
        simp only [List.length_cons] at ha
        omega
      cases e with
      | insert v => exact Bool.noConfusion (show false = true from hga)
      | decreaseKey v => exact Bool.noConfusion (show false = true from hga)
      | extract v =>
        show goodTail (rest ++ b) = true
        exact ih rest b hrest hga hgb
      | relaxImprove v wasInf inQ =>
        cases wasInf with
        | true =>
          cases rest with
          | nil => exact Bool.noConfusion (show false = true from hga)
          | cons e2 rest2 =>
            have hrest2 : rest2.length ≤ N := by
              simp only [List.length_cons] at ha
              omega
            cases e2 with
            | insert w =>
              have hga2 : (v == w && goodTail rest2) = true := hga
              rw [Bool.and_eq_true] at hga2
              show (v == w && goodTail (rest2 ++ b)) = true
              rw [Bool.and_eq_true]
              exact ⟨hga2.1, ih rest2 b hrest2 hga2.2 hgb⟩
            | extract w => exact Bool.noConfusion (show false = true from hga)
            | decreaseKey w => exact Bool.noConfusion (show false = true from hga)
            | relaxImprove w wi iq =>
              exact Bool.noConfusion (show false = true from hga)
        | false =>
          cases rest with
          | nil =>
            show goodTail (QEvent.relaxImprove v false inQ :: b) = true
            cases b with
            | nil => rfl
            | cons e2 rest2 =>
              cases e2 with
              | insert w => exact Bool.noConfusion (show false = true from hgb)
              | decreaseKey w => exact Bool.noConfusion (show false = true from hgb)
              | extract w => exact hgb
              | relaxImprove w wi iq => exact hgb
          | cons e2 rest2 =>
            cases e2 with
            | insert w => exact Bool.noConfusion (show false = true from hga)
            | decreaseKey w => exact Bool.noConfusion (show false = true from hga)
            | extract w =>
              show goodTail ((QEvent.extract w :: rest2) ++ b) = true
              exact ih (QEvent.extract w :: rest2) b hrest hga hgb
            | relaxImprove w wi iq =>
              show goodTail ((QEvent.relaxImprove w wi iq :: rest2) ++ b) = true
              exact ih (QEvent.relaxImprove w wi iq :: rest2) b hrest hga hgb

theorem goodTrace_append {a b : List QEvent} (ha : goodTrace a = true)
    (hb : goodTail b = true) : goodTrace (a ++ b) = true := by
  cases a with
  | nil => exact Bool.noConfusion (show false = true from ha)
  | cons e rest =>
    cases e with
    | insert v =>
      show goodTail (rest ++ b) = true
      exact goodTail_append rest.length rest b le_rfl ha hb
    | extract v => exact Bool.noConfusion (show false = true from ha)
    | decreaseKey v => exact Bool.noConfusion (show false = true from ha)
    | relaxImprove v wi iq => exact Bool.noConfusion (show false = true from ha)

theorem goodTail_block_extract (v : Nat) :
    goodTail [QEvent.extract v] = true := rfl

theorem goodTail_block_improve (v : Nat) (b : Bool) :
    goodTail [QEvent.relaxImprove v false b] = true := rfl

theorem goodTail_block_insert (v : Nat) (b : Bool) :
    goodTail [QEvent.relaxImprove v true b, QEvent.insert v] = true := by
  show (v == v && goodTail []) = true
  rw [beq_self_eq_true]
  rfl

theorem traceStep_good (u : Nat) (st : DP × List Nat × List QEvent) (e : Edge)
    (h : goodTrace st.2.2 = true) : goodTrace (traceStep u st e).2.2 = true := by
  unfold traceStep
  split
  · split
    · exact goodTrace_append h (goodTail_block_insert e.dest _)
    · exact goodTrace_append h (goodTail_block_improve e.dest _)
  · exact h

theorem foldl_traceStep_good (u : Nat) :
    ∀ (es : List Edge) (st : DP × List Nat × List QEvent),
      goodTrace st.2.2 = true →
      goodTrace ((es.foldl (traceStep u) st)).2.2 = true := by
  intro es
  induction es with
  | nil => intro st h; exact h
  | cons e rest ih =>
    intro st h
    exact ih _ (traceStep_good u st e h)

theorem dijkLoopT_good (A : Nat → List Edge) :
    ∀ fuel (st : DP × List Nat × List QEvent), goodTrace st.2.2 = true →
      goodTrace (dijkLoopT A fuel st).2.2 = true := by
  intro fuel
  induction fuel with
  | zero => intro st h; exact h
  | succ fuel ih =>
    intro st h
    obtain ⟨dp, q, tr⟩ := st
    cases hq : q with
    | nil =>
      subst hq
      exact h
    | cons x xs =>
      subst hq
      show goodTrace (dijkLoopT A fuel (dijkVisitT A (extractMinQ dp.dist (x :: xs)).1
        (dp, (extractMinQ dp.dist (x :: xs)).2,
          tr ++ [QEvent.extract (extractMinQ dp.dist (x :: xs)).1]))).2.2 = true
      refine ih _ ?_
      refine foldl_traceStep_good _ _ _ ?_
      exact goodTrace_append h (goodTail_block_extract _)

/-- C2: corrected — `dijkstraShortestPath` never issues a decrease-key
to the priority queue. The destination is inserted exactly on an
improvement whose old distance was `INF`, and an improvement of a
vertex whose distance was already finite — in particular one still
sitting in the queue — is followed by no queue notification at all: the
trace of every run from a present origin is the initial insert of the
source followed by a tail accepted by the scanner `goodTail` (no
`decreaseKey` anywhere, `insert v` immediately after each
`relaxImprove` of `v` from `INF`, no queue event immediately after any
other `relaxImprove`). The queue operations are modelled from the
spec's contract, the queue source being absent. -/
theorem dijkstra_queue_discipline (g : Graph T) (o : T) (s : Nat)
    (hfind : g.findVertexIdx o = some s) :
    ∃ tr, g.dijkstraTrace o = some tr ∧ goodTrace tr = true := by
  refine ⟨(dijkLoopT g.adjf (g.vertexSet.length + 1)
      (initDP s, [s], [QEvent.insert s])).2.2, ?_, ?_⟩
  · unfold Graph.dijkstraTrace
    rw [hfind]
  · refine dijkLoopT_good g.adjf _ _ ?_
    rfl

theorem dijkstra_queue_discipline_witness :
    ∃ tr, exD.dijkstraTrace 0 = some tr ∧ goodTrace tr = true :=
  dijkstra_queue_discipline exD 0 0 (by decide)

/-- Graph `0 → 1` (weight 10), `0 → 2` (weight 1), `2 → 1` (weight 1):
relaxing `2 → 1` improves vertex `1` while `1` is still in the
queue. -/
def exC2 : Graph ℕ :=
  ⟨[⟨0, [⟨1, 10, true⟩, ⟨2, 1, true⟩], 0, none⟩,
    ⟨1, [], 0, none⟩,
    ⟨2, [⟨1, 1, true⟩], 0, none⟩]⟩

/-- The full event trace of the Dijkstra run on `exC2` from source
`0`. -/
def exC2trace : List QEvent :=
  [QEvent.insert 0, QEvent.extract 0,
   QEvent.relaxImprove 1 true false, QEvent.insert 1,
   QEvent.relaxImprove 2 true false, QEvent.insert 2,
   QEvent.extract 2,
   QEvent.relaxImprove 1 false true,
   QEvent.extract 1]

/-- C2, counterexample to the claim as stated: on `exC2` the relaxation
of edge `2 → 1` strictly lowers the `dist` of vertex `1` while `1` is
in the priority queue (the event `relaxImprove 1 false true` at
position 7 of the trace), yet it is not followed by a decrease-key —
indeed no `decreaseKey` event occurs anywhere in the run. -/
theorem dijkstra_decreaseKey_counterexample :
    exC2.dijkstraTrace 0 = some exC2trace ∧
    exC2trace[7]? = some (QEvent.relaxImprove 1 false true) ∧
    (∀ e ∈ exC2trace, e.isDecreaseKey = false) := by
  refine ⟨by decide, by decide, by decide⟩

end CAL
